import Mathlib

/-!
Verification of the knowledge-graph builder (`scripts/build_kg.py`).

The embedding models text as `List Char` (ASCII character classes, matching the
source's regexes over ASCII input).  The document-format readers and the
filesystem walk are external capabilities: a run is modelled as a function of
the list of walked files, each carrying the text its reader produced.
Python dicts are modelled as insertion-ordered association lists,
`collections.Counter` as an insertion-ordered list of key/count pairs, and
Python sets (whose iteration order is unspecified) as first-occurrence
deduplicated lists.
-/

namespace BuildKG

/-- ASCII character classes used by the source's regular expressions. -/
def isUpperChar (c : Char) : Bool := decide (65 ≤ c.toNat ∧ c.toNat ≤ 90)

def isLowerChar (c : Char) : Bool := decide (97 ≤ c.toNat ∧ c.toNat ≤ 122)

def isDigitChar (c : Char) : Bool := decide (48 ≤ c.toNat ∧ c.toNat ≤ 57)

def isAlphaChar (c : Char) : Bool := isUpperChar c || isLowerChar c

def isAlnumChar (c : Char) : Bool := isAlphaChar c || isDigitChar c

/-- Regex word character (`\w`): letters, digits, underscore (ASCII model). -/
def isWordChar (c : Char) : Bool := isAlnumChar c || c == '_'

/-- Regex whitespace (`\s`): space, tab, newline, carriage return, vertical tab, form feed. -/
def isSpaceChar (c : Char) : Bool :=
  decide (c.toNat = 32 ∨ c.toNat = 9 ∨ c.toNat = 10 ∨ c.toNat = 13 ∨ c.toNat = 11 ∨ c.toNat = 12)

/-- `str.lower()` restricted to ASCII. -/
def asciiLower (c : Char) : Char :=
  if isUpperChar c then Char.ofNat (c.toNat + 32) else c

/-- `str.strip()`: drop leading and trailing whitespace. -/
def pyStrip (l : List Char) : List Char :=
  ((l.dropWhile isSpaceChar).reverse.dropWhile isSpaceChar).reverse

/-- One "capitalized word" of the entity regex: `[A-Z][a-zA-Z0-9]+` (greedy). -/
def parseCapword (l : List Char) : Option (List Char × List Char) :=
  match l with
  | [] => none
  | c :: cs =>
    if isUpperChar c then
      let a := cs.takeWhile isAlnumChar
      if a.isEmpty then none else some (c :: a, cs.dropWhile isAlnumChar)
    else none

/-- Greedy parse of the `(?:\s+[A-Z][a-zA-Z0-9]+)*` extension of the entity
regex: a list of (whitespace run, capitalized word) segments plus the
remaining input. -/
def extSegs (fuel : Nat) (l : List Char) : List (List Char × List Char) × List Char :=
  match fuel with
  | 0 => ([], l)
  | fuel + 1 =>
    let s := l.takeWhile isSpaceChar
    if s.isEmpty then ([], l)
    else
      match parseCapword (l.dropWhile isSpaceChar) with
      | none => ([], l)
      | some (w, r) =>
        let p := extSegs fuel r
        ((s, w) :: p.1, p.2)

def flattenSegs (segs : List (List Char × List Char)) : List Char :=
  segs.foldr (fun p acc => p.1 ++ p.2 ++ acc) []

/-- Trailing `\b` of the entity regex: the next character must not be a word
character (the greedy capword parse guarantees it is never alphanumeric, so
only an underscore can make this fail). -/
def boundaryOK (l : List Char) : Bool :=
  match l with
  | [] => true
  | c :: _ => !(isWordChar c)

/-- Attempt to match `[A-Z][a-zA-Z0-9]+(?:\s+[A-Z][a-zA-Z0-9]+)*\b` at the
start of `l` (the leading `\b` is checked by the caller), with the regex
engine's backtracking: if the trailing `\b` fails after the greedy parse, the
last extension segment is dropped (the separator whitespace then provides the
boundary); if there is no segment to drop, the match fails. -/
def tryPhrase (l : List Char) : Option (List Char × List Char) :=
  match parseCapword l with
  | none => none
  | some (w1, r1) =>
    let p := extSegs r1.length r1
    if boundaryOK p.2 then some (w1 ++ flattenSegs p.1, p.2)
    else
      match p.1.getLast? with
      | none => none
      | some last => some (w1 ++ flattenSegs p.1.dropLast, last.1 ++ last.2 ++ p.2)

/-- `re.findall` scan for the entity pattern: try a match at every position
whose left context is a word boundary, resuming after each match. -/
def scanEnt (fuel : Nat) (prevWord : Bool) (l : List Char) : List (List Char) :=
  match fuel with
  | 0 => []
  | fuel + 1 =>
    match l with
    | [] => []
    | c :: cs =>
      if prevWord then scanEnt fuel (isWordChar c) cs
      else
        match tryPhrase (c :: cs) with
        | some (ph, r) => ph :: scanEnt fuel true r
        | none => scanEnt fuel (isWordChar c) cs

/-- The case-sensitive entity stop-set of `find_entities`. -/
def entity_stop : List String :=
  ["The", "This", "That", "And", "For", "With", "From", "Project", "Customer"]

/-- `find_entities`: capitalized multi-word phrases, minus stop words and
phrases of length at most 2, each stripped. -/
def find_entities (text : List Char) : List String :=
  let candidates := scanEnt text.length false text
  (candidates.filter fun c =>
      !(entity_stop.contains (String.mk c)) && decide (2 < c.length)).map
    fun c => String.mk (pyStrip c)

/-- Split into maximal runs of word characters (auxiliary: returns the run
touching the left end separately). -/
def runsAux : List Char → List Char × List (List Char)
  | [] => ([], [])
  | c :: cs =>
    let p := runsAux cs
    if isWordChar c then (c :: p.1, p.2)
    else ([], if p.1.isEmpty then p.2 else p.1 :: p.2)

/-- Maximal runs of word characters of a text, in order. -/
def wordRuns (l : List Char) : List (List Char) :=
  let p := runsAux l
  if p.1.isEmpty then p.2 else p.1 :: p.2

/-- The lowercase topic stop-set of `find_topics`. -/
def topic_stop : List String :=
  ["project", "requirements", "system", "solution", "cloud", "customer", "service"]

/-- The `words` list inside `find_topics`: `re.findall(r"\b[a-zA-Z]{5,}\b",
text.lower())` (equivalently: maximal word-character runs of the lowered text
that are entirely alphabetic and at least 5 long) with stop words removed. -/
def topicCandidates (text : List Char) : List String :=
  let lowered := text.map asciiLower
  let runs := (wordRuns lowered).filter fun r => decide (5 ≤ r.length) && r.all isAlphaChar
  (runs.map fun r => String.mk r).filter fun w => !(topic_stop.contains w)

/-- A `collections.Counter`: key/count pairs, keys in first-insertion order. -/
abbrev Counter := List (String × Nat)

/-- Add `n` to a key's count (append the key if absent), as Python dict
update does: existing keys keep their position, new keys go to the end. -/
def counterAddN (c : Counter) (k : String) (n : Nat) : Counter :=
  if c.any fun p => p.1 == k then
    c.map fun p => if p.1 == k then (p.1, p.2 + n) else p
  else c ++ [(k, n)]

def counterAdd (c : Counter) (k : String) : Counter := counterAddN c k 1

/-- `Counter(ws)` for a list of strings. -/
def counterOfList (ws : List String) : Counter :=
  ws.foldl (fun acc w => counterAdd acc w) []

/-- `c.update(d)` for two Counters. -/
def counterMerge (c d : Counter) : Counter :=
  d.foldl (fun acc p => counterAddN acc p.1 p.2) c

/-- Look up a key's count (0 if absent). -/
def counterCount : Counter → String → Nat
  | [], _ => 0
  | p :: c, k => if p.1 = k then p.2 else counterCount c k

/-- Stable insertion (by descending count) used to model `most_common`. -/
def insertDesc (x : String × Nat) : List (String × Nat) → List (String × Nat)
  | [] => [x]
  | y :: ys => if y.2 ≤ x.2 then x :: y :: ys else y :: insertDesc x ys

/-- Stable sort by count, descending; ties keep the list (= first-insertion)
order, as Python's `heapq.nlargest` / `sorted(..., reverse=True)` do. -/
def sortCountDesc (l : List (String × Nat)) : List (String × Nat) :=
  l.foldr insertDesc []

/-- `Counter.most_common(n)`. -/
def mostCommon (c : Counter) (n : Nat) : List (String × Nat) :=
  (sortCountDesc c).take n

/-- `find_topics`: the at most `top_n` most frequent candidate words, count
descending, ties in first-encountered order. -/
def find_topics (text : List Char) (top_n : Nat := 10) : List String :=
  (mostCommon (counterOfList (topicCandidates text)) top_n).map fun p => p.1

/-- First-occurrence deduplication (auxiliary, with the already-seen keys). -/
def pyDedupAux (seen : List String) : List String → List String
  | [] => []
  | x :: xs => if seen.contains x then pyDedupAux seen xs else x :: pyDedupAux (x :: seen) xs

/-- First-occurrence deduplication of a list of strings. -/
def pyDedup (ws : List String) : List String := pyDedupAux [] ws

/-- `list({x for x in ws})`: a Python set converted back to a list.  Python's
set iteration order is unspecified; it is modelled as first-occurrence order
(the claims proved about it do not depend on the order). -/
def pySetList (ws : List String) : List String := pyDedup ws

/-- One record of `nodes["file"]`. -/
structure FileNode where
  id : String
  name : String
  path : String
deriving DecidableEq, Repr

/-- One record of `nodes["entity"]` or `nodes["topic"]`. -/
structure TermNode where
  id : String
  name : String
deriving DecidableEq, Repr

/-- One element of the `edges` list. -/
inductive Edge where
  | fileContainsEntity (src dst : String) (weight : Nat)
  | fileContainsTopic (src dst : String) (weight : Nat)
  | entityRelatedToEntity (src dst : String) (file : String)
  | entityRelatedToTopic (src dst : String) (file : String)
deriving DecidableEq, Repr

def Edge.typeTag : Edge → String
  | .fileContainsEntity .. => "FILE_CONTAINS_ENTITY"
  | .fileContainsTopic .. => "FILE_CONTAINS_TOPIC"
  | .entityRelatedToEntity .. => "ENTITY_RELATED_TO_ENTITY"
  | .entityRelatedToTopic .. => "ENTITY_RELATED_TO_TOPIC"

def Edge.srcId : Edge → String
  | .fileContainsEntity s _ _ => s
  | .fileContainsTopic s _ _ => s
  | .entityRelatedToEntity s _ _ => s
  | .entityRelatedToTopic s _ _ => s

def Edge.dstId : Edge → String
  | .fileContainsEntity _ d _ => d
  | .fileContainsTopic _ d _ => d
  | .entityRelatedToEntity _ d _ => d
  | .entityRelatedToTopic _ d _ => d

/-- The in-memory state of the builder: the three node dicts, the edge list,
the two global Counters, and the `file_texts` dict. -/
structure KG where
  fileNodes : List FileNode
  entityNodes : List TermNode
  topicNodes : List TermNode
  edges : List Edge
  entity_global_counts : Counter
  topic_global_counts : Counter
  file_texts : List (String × List Char)
deriving Repr

def emptyKG : KG := ⟨[], [], [], [], [], [], []⟩

/-- One walked file, as delivered by the (external) text extractor. -/
structure InputFile where
  path : String
  name : String
  text : List Char
deriving DecidableEq, Repr

/-- `not text.strip()` is false: the file passes the empty-text gate. -/
def processedFile (f : InputFile) : Bool := f.text.any fun c => !(isSpaceChar c)

/-- Python dict assignment `nodes["file"][id] = node`: replace in place or append. -/
def dictInsertFileNode (l : List FileNode) (n : FileNode) : List FileNode :=
  if l.any fun m => m.id == n.id then l.map fun m => if m.id == n.id then n else m
  else l ++ [n]

/-- Python dict assignment `file_texts[id] = text`. -/
def dictInsertText (l : List (String × List Char)) (k : String) (v : List Char) :
    List (String × List Char) :=
  if l.any fun p => p.1 == k then l.map fun p => if p.1 == k then (k, v) else p
  else l ++ [(k, v)]

/-- Body of the first-pass loop over `entity_counts.items()`: create the
entity node if absent, then append the containment edge. -/
def addEntityEdge (fid : String) (s : KG) (p : String × Nat) : KG :=
  let entId := "entity:" ++ p.1
  let s1 :=
    if s.entityNodes.any fun n => n.id == entId then s
    else { s with entityNodes := s.entityNodes ++ [⟨entId, p.1⟩] }
  { s1 with edges := s1.edges ++ [Edge.fileContainsEntity fid entId p.2] }

/-- Body of the first-pass loop over `topic_counts.items()`. -/
def addTopicEdge (fid : String) (s : KG) (p : String × Nat) : KG :=
  let topId := "topic:" ++ p.1
  let s1 :=
    if s.topicNodes.any fun n => n.id == topId then s
    else { s with topicNodes := s.topicNodes ++ [⟨topId, p.1⟩] }
  { s1 with edges := s1.edges ++ [Edge.fileContainsTopic fid topId p.2] }

/-- First-pass body for one walked file: skip if the stripped text is empty,
otherwise register the file node and text, update the global counters, and
append one containment edge per distinct entity and topic. -/
def step1 (s : KG) (f : InputFile) : KG :=
  if processedFile f then
    let fid := "file:" ++ f.path
    let entity_counts := counterOfList (find_entities f.text)
    let topic_counts := counterOfList (find_topics f.text)
    let s1 := { s with
      fileNodes := dictInsertFileNode s.fileNodes ⟨fid, f.name, f.path⟩,
      file_texts := dictInsertText s.file_texts fid f.text,
      entity_global_counts := counterMerge s.entity_global_counts entity_counts,
      topic_global_counts := counterMerge s.topic_global_counts topic_counts }
    let s2 := entity_counts.foldl (addEntityEdge fid) s1
    topic_counts.foldl (addTopicEdge fid) s2
  else s

/-- All `(l[i], l[j])` with `i < j`, in the nested-loop order of the source. -/
def listPairs {α : Type} : List α → List (α × α)
  | [] => []
  | x :: xs => (xs.map fun y => (x, y)) ++ listPairs xs

/-- All `(a, b)` in the nested-loop order of the source. -/
def listProd {α β : Type} : List α → List β → List (α × β)
  | [], _ => []
  | a :: as, l => (l.map fun b => (a, b)) ++ listProd as l

/-- The co-occurrence edges appended for one file in the second pass. -/
def cooccurEdges (fid : String) (es ts : List String) : List Edge :=
  ((listPairs es).map fun p =>
      Edge.entityRelatedToEntity ("entity:" ++ p.1) ("entity:" ++ p.2) fid)
    ++ (listProd es ts).map fun p =>
      Edge.entityRelatedToTopic ("entity:" ++ p.1) ("topic:" ++ p.2) fid

/-- Second-pass body for one `file_texts` item: re-derive the deduplicated
entity and topic sets and append the co-occurrence edges. -/
def step2 (s : KG) (ft : String × List Char) : KG :=
  { s with
    edges := s.edges ++
      cooccurEdges ft.1 (pySetList (find_entities ft.2)) (pySetList (find_topics ft.2)) }

/-- The state after the first pass over the walked files. -/
def runPass1 (files : List InputFile) : KG := files.foldl step1 emptyKG

/-- The complete run: first pass, then the co-occurrence pass over `file_texts`. -/
def build_kg (files : List InputFile) : KG :=
  let s := runPass1 files
  s.file_texts.foldl step2 s

/-- Graphviz line for a file node (the `shape=box` template of the source,
spliced with no escaping). -/
def gvFileLine (n : FileNode) : String :=
  "  \"" ++ n.id ++ "\" [label=\"" ++ n.name ++ "\" shape=box];"

/-- Graphviz line for an entity node (`shape=ellipse`). -/
def gvEntityLine (n : TermNode) : String :=
  "  \"" ++ n.id ++ "\" [label=\"" ++ n.name ++ "\" shape=ellipse];"

/-- Graphviz line for a topic node (`shape=diamond`). -/
def gvTopicLine (n : TermNode) : String :=
  "  \"" ++ n.id ++ "\" [label=\"" ++ n.name ++ "\" shape=diamond];"

/-- Graphviz line for an edge. -/
def gvEdgeLine (e : Edge) : String :=
  "  \"" ++ e.srcId ++ "\" -- \"" ++ e.dstId ++ "\" [label=\"" ++ e.typeTag ++ "\"];"

/-- The `gv_lines` list of the visualization export. -/
def gv_lines (s : KG) : List String :=
  ["graph G \x7b"] ++ s.fileNodes.map gvFileLine ++ s.entityNodes.map gvEntityLine
    ++ s.topicNodes.map gvTopicLine ++ s.edges.map gvEdgeLine ++ ["\x7d"]

/-- `entity_global_counts.most_common(20)`, as used by the summary export. -/
def summaryTopEntities (s : KG) : List (String × Nat) := mostCommon s.entity_global_counts 20

/-- `topic_global_counts.most_common(20)`, as used by the summary export. -/
def summaryTopTopics (s : KG) : List (String × Nat) := mostCommon s.topic_global_counts 20

/-- The summary (`graph.md`) lines. -/
def summary_lines (s : KG) : List String :=
  ["# Knowledge Graph Summary\n",
   "- Files: " ++ toString s.fileNodes.length,
   "- Entities: " ++ toString s.entityNodes.length,
   "- Topics: " ++ toString s.topicNodes.length ++ "\n",
   "## Top Entities\n"]
  ++ ((summaryTopEntities s).map fun p => "- " ++ p.1 ++ " (" ++ toString p.2 ++ " mentions)")
  ++ ["\n## Top Topics\n"]
  ++ (summaryTopTopics s).map fun p => "- " ++ p.1 ++ " (" ++ toString p.2 ++ " occurrences)"

/-- Shape invariant of every raw phrase produced by the entity scan: it starts
with an uppercase letter and ends with an alphanumeric character. -/
def phraseShape (p : List Char) : Prop :=
  (∃ c, p.head? = some c ∧ isUpperChar c = true) ∧
  (∃ d, p.getLast? = some d ∧ isAlnumChar d = true)

def counterKeys (c : Counter) : List String := c.map fun p => p.1

def fileIds (s : KG) : List String := s.fileNodes.map FileNode.id

def entityIds (s : KG) : List String := s.entityNodes.map TermNode.id

def topicIds (s : KG) : List String := s.topicNodes.map TermNode.id

def textKeys (s : KG) : List String := s.file_texts.map fun p => p.1

/-- Both endpoints of an edge are present in the node collections of `s`. -/
def edgeClosed (s : KG) (e : Edge) : Prop :=
  match e with
  | .fileContainsEntity a b _ => a ∈ fileIds s ∧ b ∈ entityIds s
  | .fileContainsTopic a b _ => a ∈ fileIds s ∧ b ∈ topicIds s
  | .entityRelatedToEntity a b _ => a ∈ entityIds s ∧ b ∈ entityIds s
  | .entityRelatedToTopic a b _ => a ∈ entityIds s ∧ b ∈ topicIds s

def edgesClosed (s : KG) : Prop := ∀ e ∈ s.edges, edgeClosed s e

def edgeWeight : Edge → Nat
  | .fileContainsEntity _ _ w => w
  | .fileContainsTopic _ _ w => w
  | .entityRelatedToEntity _ _ _ => 0
  | .entityRelatedToTopic _ _ _ => 0

def sumWeights (l : List Edge) : Nat := (l.map edgeWeight).sum

/-- Selector: FILE_CONTAINS_ENTITY edge with the given endpoints. -/
def isEntityContainment (fid tid : String) (e : Edge) : Bool :=
  match e with
  | .fileContainsEntity a b _ => a == fid && b == tid
  | _ => false

/-- Selector: FILE_CONTAINS_TOPIC edge with the given endpoints. -/
def isTopicContainment (fid tid : String) (e : Edge) : Bool :=
  match e with
  | .fileContainsTopic a b _ => a == fid && b == tid
  | _ => false

/-- Selector: ENTITY_RELATED_TO_ENTITY edge tagged with the given file. -/
def isEEdgeOfFile (fid : String) (e : Edge) : Bool :=
  match e with
  | .entityRelatedToEntity _ _ g => g == fid
  | _ => false

/-- Selector: ENTITY_RELATED_TO_TOPIC edge tagged with the given file. -/
def isETdgeOfFile (fid : String) (e : Edge) : Bool :=
  match e with
  | .entityRelatedToTopic _ _ g => g == fid
  | _ => false

/-- An edge mentions the given id as an endpoint or as its file tag. -/
def edgeMentions (x : String) (e : Edge) : Bool :=
  e.srcId == x || e.dstId == x ||
    (match e with
     | .entityRelatedToEntity _ _ g => g == x
     | .entityRelatedToTopic _ _ g => g == x
     | _ => false)

/-- The walked files that pass the empty-text gate. -/
def registeredFiles (files : List InputFile) : List InputFile :=
  files.filter processedFile

abbrev pathsNodup (files : List InputFile) : Prop :=
  (files.map InputFile.path).Nodup

/-- The containment edges the first pass appends for one file's entity counter. -/
def entityEdgesOf (fid : String) (c : Counter) : List Edge :=
  c.map fun p => Edge.fileContainsEntity fid ("entity:" ++ p.1) p.2

/-- The containment edges the first pass appends for one file's topic counter. -/
def topicEdgesOf (fid : String) (c : Counter) : List Edge :=
  c.map fun p => Edge.fileContainsTopic fid ("topic:" ++ p.1) p.2

/-- All containment edges the first pass appends for one file. -/
def fileBlock (f : InputFile) : List Edge :=
  entityEdgesOf ("file:" ++ f.path) (counterOfList (find_entities f.text))
    ++ topicEdgesOf ("file:" ++ f.path) (counterOfList (find_topics f.text))

/-- All co-occurrence edges the second pass appends for one `file_texts` item. -/
def cooccurBlock (ft : String × List Char) : List Edge :=
  cooccurEdges ft.1 (pySetList (find_entities ft.2)) (pySetList (find_topics ft.2))

/-- The entity candidates of all registered files, concatenated in run order. -/
def allEntityOccurrences (files : List InputFile) : List String :=
  (registeredFiles files).flatMap fun f => find_entities f.text

/-- The topic-extraction results of all registered files, concatenated in run order. -/
def allTopicListings (files : List InputFile) : List String :=
  (registeredFiles files).flatMap fun f => find_topics f.text

/-- Sample input (the spec's end-to-end scenario, file `a.txt`). -/
def fileA : InputFile :=
  ⟨"./source/a.txt", "a.txt", "Acme Corp requirements for Acme Corp cloud migration".data⟩

/-- Sample input (the spec's end-to-end scenario, file `b.txt`). -/
def fileB : InputFile :=
  ⟨"./source/b.txt", "b.txt", "Acme Corp and Globex Inc partnership".data⟩

end BuildKG


namespace BuildKG

theorem toNat_ofNat_small {n : Nat} (h : n < 55296) : (Char.ofNat n).toNat = n := by
  unfold Char.ofNat
  rw [dif_pos (Or.inl h)]
  rfl

theorem not_space_of_upper {c : Char} (h : isUpperChar c = true) : isSpaceChar c = false := by
  simp only [isUpperChar, decide_eq_true_eq] at h
  simp only [isSpaceChar, decide_eq_false_iff_not]
  omega

theorem not_space_of_alnum {c : Char} (h : isAlnumChar c = true) : isSpaceChar c = false := by
  simp only [isAlnumChar, isAlphaChar, isUpperChar, isLowerChar, isDigitChar,
    Bool.or_eq_true, decide_eq_true_eq] at h
  simp only [isSpaceChar, decide_eq_false_iff_not]
  omega

theorem toNat_asciiLower_of_upper {c : Char} (h : isUpperChar c = true) :
    (asciiLower c).toNat = c.toNat + 32 := by
  have hb : 65 ≤ c.toNat ∧ c.toNat ≤ 90 := by
    simpa only [isUpperChar, decide_eq_true_eq] using h
  rw [asciiLower, if_pos h]
  exact toNat_ofNat_small (by omega)

theorem asciiLower_not_upper (c : Char) : isUpperChar (asciiLower c) = false := by
  by_cases h : isUpperChar c = true
  · have ht := toNat_asciiLower_of_upper h
    have hb : 65 ≤ c.toNat ∧ c.toNat ≤ 90 := by
      simpa only [isUpperChar, decide_eq_true_eq] using h
    simp only [isUpperChar, decide_eq_false_iff_not]
    omega
  · have hc : isUpperChar c = false := by
      revert h; cases isUpperChar c <;> simp
    rw [asciiLower, if_neg (by simp [hc]), hc]

theorem lower_of_alpha_asciiLower {c : Char} (h : isAlphaChar (asciiLower c) = true) :
    isLowerChar (asciiLower c) = true := by
  have hu := asciiLower_not_upper c
  simpa only [isAlphaChar, hu, Bool.false_or] using h

theorem dropWhile_eq_self_of_head {p : Char → Bool} {l : List Char}
    (h : ∀ c, l.head? = some c → p c = false) : l.dropWhile p = l := by
  cases l with
  | nil => rfl
  | cons c t => simp [List.dropWhile_cons, h c rfl]

theorem pyStrip_eq_self {l : List Char}
    (h1 : ∀ c, l.head? = some c → isSpaceChar c = false)
    (h2 : ∀ c, l.getLast? = some c → isSpaceChar c = false) : pyStrip l = l := by
  unfold pyStrip
  rw [dropWhile_eq_self_of_head h1]
  rw [dropWhile_eq_self_of_head (fun c hc => h2 c (by rw [← List.head?_reverse]; exact hc))]
  exact List.reverse_reverse l

theorem exists_getLast?_of_ne_nil {l : List Char} (h : l ≠ []) :
    ∃ d, l.getLast? = some d ∧ d ∈ l := by
  induction l with
  | nil => exact absurd rfl h
  | cons a t ih =>
    cases t with
    | nil => exact ⟨a, rfl, List.mem_singleton.mpr rfl⟩
    | cons b t2 =>
      obtain ⟨d, hd, hm⟩ := ih (by simp)
      exact ⟨d, by rw [List.getLast?_cons_cons]; exact hd, List.mem_cons_of_mem _ hm⟩

theorem parseCapword_shape {l w r : List Char} (h : parseCapword l = some (w, r)) :
    phraseShape w := by
  match l with
  | [] => simp [parseCapword] at h
  | c :: cs =>
    by_cases hc : isUpperChar c = true
    · simp only [parseCapword, hc, if_true] at h
      by_cases ha : (cs.takeWhile isAlnumChar).isEmpty
      · simp [ha] at h
      · simp only [ha, Bool.false_eq_true, if_false, Option.some.injEq, Prod.mk.injEq] at h
        obtain ⟨hw, _⟩ := h
        subst hw
        constructor
        · exact ⟨c, rfl, hc⟩
        · have hne : cs.takeWhile isAlnumChar ≠ [] := by
            intro hx; rw [hx] at ha; simp at ha
          obtain ⟨d, hd, hm⟩ := exists_getLast?_of_ne_nil hne
          refine ⟨d, ?_, List.mem_takeWhile_imp hm⟩
          cases hxx : cs.takeWhile isAlnumChar with
          | nil => exact absurd hxx hne
          | cons y ys =>
            rw [List.getLast?_cons_cons]
            rw [hxx] at hd
            exact hd
    · have hcf : isUpperChar c = false := by revert hc; cases isUpperChar c <;> simp
      simp [parseCapword, hcf] at h

theorem extSegs_shape {fuel : Nat} {l : List Char} :
    ∀ sg ∈ (extSegs fuel l).1, phraseShape sg.2 := by
  induction fuel generalizing l with
  | zero => intro sg h; simp [extSegs] at h
  | succ fuel ih =>
    intro sg h
    by_cases hs : (l.takeWhile isSpaceChar).isEmpty
    · simp [extSegs, hs] at h
    · simp only [extSegs, hs, Bool.false_eq_true, if_false] at h
      cases hp : parseCapword (l.dropWhile isSpaceChar) with
      | none => rw [hp] at h; simp at h
      | some p =>
        rw [hp] at h
        simp only [List.mem_cons] at h
        cases h with
        | inl h =>
          subst h
          exact @parseCapword_shape (l.dropWhile isSpaceChar) p.1 p.2 (by rw [hp])
        | inr h => exact ih sg h

theorem phrase_last_append {p q : List Char} (hq : (∃ d, q.getLast? = some d ∧ isAlnumChar d = true) ∨
    (q = [] ∧ ∃ d, p.getLast? = some d ∧ isAlnumChar d = true)) :
    ∃ d, (p ++ q).getLast? = some d ∧ isAlnumChar d = true := by
  cases hq with
  | inl h =>
    obtain ⟨d, hd, ha⟩ := h
    refine ⟨d, ?_, ha⟩
    rw [List.getLast?_append, hd]; rfl
  | inr h =>
    obtain ⟨hq0, d, hd, ha⟩ := h
    subst hq0
    exact ⟨d, by simpa using hd, ha⟩

theorem flattenSegs_last {segs : List (List Char × List Char)}
    (h : ∀ sg ∈ segs, phraseShape sg.2) :
    flattenSegs segs = [] ∨
      ∃ d, (flattenSegs segs).getLast? = some d ∧ isAlnumChar d = true := by
  induction segs with
  | nil => exact Or.inl rfl
  | cons sg rest ih =>
    right
    have hsg := (h sg (List.mem_cons_self ..)).2
    have hrest := ih (fun x hx => h x (List.mem_cons_of_mem _ hx))
    show ∃ d, (sg.1 ++ sg.2 ++ flattenSegs rest).getLast? = some d ∧ isAlnumChar d = true
    cases hrest with
    | inl h0 =>
      rw [h0]
      obtain ⟨d, hd, ha⟩ := hsg
      refine ⟨d, ?_, ha⟩
      rw [List.append_nil, List.getLast?_append, hd]; rfl
    | inr h1 =>
      obtain ⟨d, hd, ha⟩ := h1
      refine ⟨d, ?_, ha⟩
      rw [List.getLast?_append, hd]; rfl

theorem tryPhrase_shape {l ph r : List Char} (h : tryPhrase l = some (ph, r)) :
    phraseShape ph := by
  unfold tryPhrase at h
  cases hp : parseCapword l with
  | none => rw [hp] at h; simp at h
  | some p =>
    obtain ⟨w1, r1⟩ := p
    rw [hp] at h
    have hw1 := parseCapword_shape hp
    simp only at h
    by_cases hb : boundaryOK (extSegs r1.length r1).2 = true
    · rw [if_pos hb] at h
      simp only [Option.some.injEq, Prod.mk.injEq] at h
      obtain ⟨hph, _⟩ := h
      subst hph
      constructor
      · obtain ⟨c, hc, hu⟩ := hw1.1
        refine ⟨c, ?_, hu⟩
        cases w1 with
        | nil => simp at hc
        | cons a t => simpa using hc
      · refine phrase_last_append ?_
        cases flattenSegs_last (@extSegs_shape r1.length r1) with
        | inl h0 => exact Or.inr ⟨h0, hw1.2⟩
        | inr h1 => exact Or.inl h1
    · rw [if_neg hb] at h
      cases hlast : (extSegs r1.length r1).1.getLast? with
      | none => rw [hlast] at h; simp at h
      | some last =>
        rw [hlast] at h
        simp only [Option.some.injEq, Prod.mk.injEq] at h
        obtain ⟨hph, _⟩ := h
        subst hph
        constructor
        · obtain ⟨c, hc, hu⟩ := hw1.1
          refine ⟨c, ?_, hu⟩
          cases w1 with
          | nil => simp at hc
          | cons a t => simpa using hc
        · refine phrase_last_append ?_
          have hsub : ∀ sg ∈ (extSegs r1.length r1).1.dropLast, phraseShape sg.2 := by
            intro sg hsg
            exact @extSegs_shape r1.length r1 _ (List.dropLast_sublist _ |>.mem hsg)
          cases flattenSegs_last hsub with
          | inl h0 => exact Or.inr ⟨h0, hw1.2⟩
          | inr h1 => exact Or.inl h1

theorem scanEnt_shape {fuel : Nat} {b : Bool} {l : List Char} :
    ∀ p ∈ scanEnt fuel b l, phraseShape p := by
  induction fuel generalizing b l with
  | zero => intro p h; simp [scanEnt] at h
  | succ fuel ih =>
    intro p h
    match l with
    | [] => simp [scanEnt] at h
    | c :: cs =>
      by_cases hb : b = true
      · subst hb
        simp only [scanEnt, if_true] at h
        exact ih p h
      · have hbf : b = false := by revert hb; cases b <;> simp
        subst hbf
        simp only [scanEnt, Bool.false_eq_true, if_false] at h
        cases ht : tryPhrase (c :: cs) with
        | none => rw [ht] at h; exact ih p h
        | some q =>
          rw [ht] at h
          simp only [List.mem_cons] at h
          cases h with
          | inl h => subst h; exact @tryPhrase_shape (c :: cs) q.1 q.2 (by rw [ht])
          | inr h => exact ih p h

end BuildKG

namespace BuildKG

theorem pyStrip_of_shape {c : List Char} (h : phraseShape c) : pyStrip c = c := by
  obtain ⟨⟨a, ha, hu⟩, ⟨d, hd, hal⟩⟩ := h
  apply pyStrip_eq_self
  · intro x hx
    have hxa : a = x := by rw [ha] at hx; exact Option.some.inj hx
    subst hxa
    exact not_space_of_upper hu
  · intro x hx
    have hxd : d = x := by rw [hd] at hx; exact Option.some.inj hx
    subst hxd
    exact not_space_of_alnum hal

/-- C7: every phrase returned by entity extraction has length at least 3 and
is not a member of the case-sensitive stop-set. -/
theorem claim_C7 (text : List Char) (p : String) (hp : p ∈ find_entities text) :
    3 ≤ p.length ∧ p ∉ entity_stop := by
  unfold find_entities at hp
  simp only [List.mem_map] at hp
  obtain ⟨c, hc, hpc⟩ := hp
  rw [List.mem_filter] at hc
  obtain ⟨hcand, hpred⟩ := hc
  have hshape := scanEnt_shape c hcand
  have hstrip := pyStrip_of_shape hshape
  rw [hstrip] at hpc
  subst hpc
  rw [Bool.and_eq_true] at hpred
  obtain ⟨hstop, hlen⟩ := hpred
  refine ⟨of_decide_eq_true hlen, ?_⟩
  intro hmem
  rw [Bool.not_eq_true'] at hstop
  rw [← List.elem_iff] at hmem
  have hx : entity_stop.contains (String.mk c) = true := hmem
  rw [hstop] at hx
  exact Bool.false_ne_true hx

theorem claim_C7_witness :
    ("Acme Corp" ∈ find_entities "Acme Corp".data) ∧
      (3 ≤ "Acme Corp".length ∧ "Acme Corp" ∉ entity_stop) :=
  ⟨by decide, claim_C7 "Acme Corp".data "Acme Corp" (by decide)⟩

end BuildKG

namespace BuildKG

theorem counterCount_eq_zero_of_not_mem {c : Counter} {k : String}
    (h : k ∉ counterKeys c) : counterCount c k = 0 := by
  induction c with
  | nil => rfl
  | cons p t ih =>
    have hck : counterKeys (p :: t) = p.1 :: counterKeys t := rfl
    rw [hck] at h
    simp only [List.mem_cons, not_or] at h
    have hne : ¬(p.1 = k) := fun he => h.1 he.symm
    simp only [counterCount, if_neg hne]
    exact ih h.2

theorem counterCount_append (c d : Counter) (k : String) :
    counterCount (c ++ d) k =
      if k ∈ counterKeys c then counterCount c k else counterCount d k := by
  induction c with
  | nil => simp [counterKeys, counterCount]
  | cons p t ih =>
    by_cases hp : p.1 = k
    · simp [counterCount, counterKeys, hp]
    · have hk : (k ∈ counterKeys (p :: t)) ↔ (k ∈ counterKeys t) := by
        have hck : counterKeys (p :: t) = p.1 :: counterKeys t := rfl
        rw [hck, List.mem_cons]
        exact ⟨fun h => h.elim (fun he => absurd he.symm hp) id, Or.inr⟩
      simp only [List.cons_append, counterCount, if_neg hp, hk, List.append_eq]
      exact ih

theorem mem_counterKeys_iff_any (c : Counter) (k : String) :
    (c.any fun p => p.1 == k) = true ↔ k ∈ counterKeys c := by
  rw [List.any_eq_true]
  constructor
  · intro h
    obtain ⟨p, hp, he⟩ := h
    rw [beq_iff_eq] at he
    rw [← he]
    exact List.mem_map_of_mem _ hp
  · intro h
    simp only [counterKeys, List.mem_map] at h
    obtain ⟨p, hp, he⟩ := h
    exact ⟨p, hp, by rw [beq_iff_eq]; exact he⟩

theorem counterCount_map_bump (c : Counter) (k k2 : String) (n : Nat) :
    counterCount (c.map fun p => if p.1 == k then (p.1, p.2 + n) else p) k2 =
      counterCount c k2 + if k2 = k ∧ k2 ∈ counterKeys c then n else 0 := by
  induction c with
  | nil => simp [counterCount, counterKeys]
  | cons p t ih =>
    by_cases hp : p.1 = k2
    · by_cases hpk : p.1 = k
      · have hb : (p.1 == k) = true := by rw [beq_iff_eq]; exact hpk
        simp only [List.map_cons, hb, if_true, counterCount, if_pos hp]
        have hcond : k2 = k ∧ k2 ∈ counterKeys (p :: t) := by
          constructor
          · rw [← hp]; exact hpk
          · rw [← hp]; exact List.mem_map_of_mem _ (List.mem_cons_self ..)
        rw [if_pos hcond]
      · have hb : (p.1 == k) = false := by rw [beq_eq_false_iff_ne]; exact hpk
        simp only [List.map_cons, hb, Bool.false_eq_true, if_false, counterCount, if_pos hp]
        have hcond : ¬ (k2 = k ∧ k2 ∈ counterKeys (p :: t)) := by
          intro hc
          exact hpk (hp.trans hc.1)
        rw [if_neg hcond]
        omega
    · have hmem : (k2 ∈ counterKeys (p :: t)) ↔ (k2 ∈ counterKeys t) := by
        have hck : counterKeys (p :: t) = p.1 :: counterKeys t := rfl
        rw [hck, List.mem_cons]
        exact ⟨fun h => h.elim (fun he => absurd he.symm hp) id, Or.inr⟩
      by_cases hb : (p.1 == k) = true
      · simp only [List.map_cons, hb, if_true, counterCount, if_neg hp, ih, hmem]
      · simp only [List.map_cons, hb, Bool.false_eq_true, if_false, counterCount,
          if_neg hp, ih, hmem]

theorem contains_iff (l : List String) (a : String) : l.contains a = true ↔ a ∈ l :=
  List.elem_iff

theorem counterCount_addN (c : Counter) (k k2 : String) (n : Nat) :
    counterCount (counterAddN c k n) k2 = counterCount c k2 + if k2 = k then n else 0 := by
  unfold counterAddN
  by_cases h : (c.any fun p => p.1 == k) = true
  · rw [if_pos h, counterCount_map_bump]
    rw [mem_counterKeys_iff_any] at h
    by_cases hk : k2 = k
    · subst hk; simp [h]
    · simp [hk]
  · have hnm : k ∉ counterKeys c := fun hm => h ((mem_counterKeys_iff_any c k).mpr hm)
    rw [if_neg h, counterCount_append]
    by_cases hk : k2 = k
    · subst hk
      rw [if_neg hnm, counterCount_eq_zero_of_not_mem hnm]
      simp [counterCount]
    · have h1 : ¬(k = k2) := fun he => hk he.symm
      by_cases hm2 : k2 ∈ counterKeys c
      · rw [if_pos hm2]; simp [hk]
      · rw [if_neg hm2, counterCount_eq_zero_of_not_mem hm2]
        simp [counterCount, h1, hk]

theorem counterKeys_map_bump (c : Counter) (k : String) (n : Nat) :
    counterKeys (c.map fun p => if p.1 == k then (p.1, p.2 + n) else p) = counterKeys c := by
  induction c with
  | nil => rfl
  | cons p t ih =>
    have hkey : ((if (p.1 == k) = true then (p.1, p.2 + n) else p) : String × Nat).1 = p.1 := by
      by_cases hb : (p.1 == k) = true <;> simp [hb]
    simp only [counterKeys, List.map_cons]
    rw [hkey]
    simp only [counterKeys] at ih
    rw [ih]

theorem counterKeys_addN (c : Counter) (k : String) (n : Nat) :
    counterKeys (counterAddN c k n) =
      if k ∈ counterKeys c then counterKeys c else counterKeys c ++ [k] := by
  unfold counterAddN
  by_cases h : (c.any fun p => p.1 == k) = true
  · rw [if_pos h, counterKeys_map_bump, if_pos ((mem_counterKeys_iff_any c k).mp h)]
  · have hnm : k ∉ counterKeys c := fun hm => h ((mem_counterKeys_iff_any c k).mpr hm)
    rw [if_neg h, if_neg hnm]
    simp [counterKeys]

theorem counterKeys_nodup_addN {c : Counter} (h : (counterKeys c).Nodup) (k : String) (n : Nat) :
    (counterKeys (counterAddN c k n)).Nodup := by
  rw [counterKeys_addN]
  by_cases hm : k ∈ counterKeys c
  · rw [if_pos hm]; exact h
  · rw [if_neg hm]
    refine List.Nodup.append h (List.nodup_singleton k) ?_
    intro x hx hk
    rw [List.mem_singleton] at hk
    exact hm (hk ▸ hx)

theorem counterCount_foldl (ws : List String) (c : Counter) (k : String) :
    counterCount (ws.foldl counterAdd c) k = counterCount c k + ws.count k := by
  induction ws generalizing c with
  | nil => simp
  | cons w t ih =>
    rw [List.foldl_cons, ih, counterAdd, counterCount_addN, List.count_cons]
    by_cases hk : k = w
    · subst hk; simp; omega
    · have hw : (w == k) = false := by rw [beq_eq_false_iff_ne]; exact fun he => hk he.symm
      simp [hk, hw]

theorem counterCount_ofList (ws : List String) (k : String) :
    counterCount (counterOfList ws) k = ws.count k := by
  have h := counterCount_foldl ws [] k
  simpa [counterOfList, counterCount] using h

theorem pyDedupAux_congr {s1 s2 : List String} (h : ∀ x, x ∈ s1 ↔ x ∈ s2) (l : List String) :
    pyDedupAux s1 l = pyDedupAux s2 l := by
  induction l generalizing s1 s2 with
  | nil => rfl
  | cons x t ih =>
    have hc : s1.contains x = s2.contains x := by
      by_cases hm : x ∈ s1
      · rw [(contains_iff s1 x).mpr hm, (contains_iff s2 x).mpr ((h x).mp hm)]
      · have h1 : s1.contains x = false := by
          rw [Bool.eq_false_iff]; exact fun hb => hm ((contains_iff s1 x).mp hb)
        have h2 : s2.contains x = false := by
          rw [Bool.eq_false_iff]; exact fun hb => hm ((h x).mpr ((contains_iff s2 x).mp hb))
        rw [h1, h2]
    simp only [pyDedupAux, hc]
    by_cases hb : s2.contains x = true
    · simp only [if_pos hb]
      exact ih h
    · simp only [if_neg hb]
      have h3 : ∀ y, y ∈ x :: s1 ↔ y ∈ x :: s2 := by
        intro y
        rw [List.mem_cons, List.mem_cons, h y]
      rw [ih h3]

theorem mem_pyDedupAux {l : List String} {x : String} :
    ∀ {seen : List String}, x ∈ pyDedupAux seen l ↔ x ∈ l ∧ x ∉ seen := by
  induction l with
  | nil => intro seen; simp [pyDedupAux]
  | cons y t ih =>
    intro seen
    by_cases hb : seen.contains y = true
    · rw [pyDedupAux, if_pos hb, ih]
      have hy : y ∈ seen := (contains_iff seen y).mp hb
      constructor
      · intro hx; exact ⟨List.mem_cons_of_mem _ hx.1, hx.2⟩
      · intro hx
        refine ⟨?_, hx.2⟩
        cases List.mem_cons.mp hx.1 with
        | inl he => exact absurd (he ▸ hy) hx.2
        | inr hm => exact hm
    · rw [pyDedupAux, if_neg hb, List.mem_cons, ih]
      have hy : y ∉ seen := fun hm => hb ((contains_iff seen y).mpr hm)
      constructor
      · intro hx
        cases hx with
        | inl he => exact ⟨he ▸ List.mem_cons_self .., he ▸ hy⟩
        | inr hm =>
          refine ⟨List.mem_cons_of_mem _ hm.1, fun hs => hm.2 (List.mem_cons_of_mem _ hs)⟩
      · intro hx
        by_cases he : x = y
        · exact Or.inl he
        · refine Or.inr ?_
          have hxt : x ∈ t := by
            cases List.mem_cons.mp hx.1 with
            | inl h0 => exact absurd h0 he
            | inr h0 => exact h0
          refine ⟨hxt, fun hs => ?_⟩
          cases List.mem_cons.mp hs with
          | inl h0 => exact he h0
          | inr h0 => exact hx.2 h0

theorem counterKeys_foldl (ws : List String) (c : Counter) :
    counterKeys (ws.foldl counterAdd c) = counterKeys c ++ pyDedupAux (counterKeys c) ws := by
  induction ws generalizing c with
  | nil => simp [pyDedupAux]
  | cons w t ih =>
    rw [List.foldl_cons, ih]
    by_cases hm : w ∈ counterKeys c
    · have hc : (counterKeys c).contains w = true := (contains_iff _ _).mpr hm
      rw [counterAdd, counterKeys_addN, if_pos hm, pyDedupAux, if_pos hc]
    · have hc : (counterKeys c).contains w = false := by
        rw [Bool.eq_false_iff]; exact fun hb => hm ((contains_iff _ _).mp hb)
      rw [counterAdd, counterKeys_addN, if_neg hm, pyDedupAux, if_neg (by rw [hc]; simp)]
      rw [List.append_assoc, List.singleton_append]
      have h3 : ∀ y, y ∈ counterKeys c ++ [w] ↔ y ∈ w :: counterKeys c := by
        intro y
        rw [List.mem_append, List.mem_singleton, List.mem_cons, Or.comm]
      rw [pyDedupAux_congr h3]

theorem counterKeys_ofList (ws : List String) :
    counterKeys (counterOfList ws) = pyDedup ws := by
  have h := counterKeys_foldl ws []
  simpa [counterOfList, counterKeys, pyDedup] using h

theorem counterKeys_nodup_foldl (ws : List String) {c : Counter}
    (h : (counterKeys c).Nodup) : (counterKeys (ws.foldl counterAdd c)).Nodup := by
  induction ws generalizing c with
  | nil => exact h
  | cons w t ih =>
    rw [List.foldl_cons]
    exact ih (counterKeys_nodup_addN h w 1)

theorem counterKeys_nodup_ofList (ws : List String) :
    (counterKeys (counterOfList ws)).Nodup :=
  counterKeys_nodup_foldl ws (by simp [counterKeys])

theorem counterCount_merge (c d : Counter) (k : String) (hd : (counterKeys d).Nodup) :
    counterCount (counterMerge c d) k = counterCount c k + counterCount d k := by
  induction d generalizing c with
  | nil => simp [counterMerge, counterCount]
  | cons p t ih =>
    have hck : counterKeys (p :: t) = p.1 :: counterKeys t := rfl
    rw [hck, List.nodup_cons] at hd
    simp only [counterMerge, List.foldl_cons]
    have ihh := ih (counterAddN c p.1 p.2) hd.2
    simp only [counterMerge] at ihh
    rw [ihh, counterCount_addN]
    simp only [counterCount]
    by_cases hk : p.1 = k
    · have hz : k ∉ counterKeys t := by rw [← hk]; exact hd.1
      rw [if_pos hk, if_pos hk.symm, counterCount_eq_zero_of_not_mem hz]
      omega
    · rw [if_neg hk, if_neg (fun he => hk he.symm)]
      omega

theorem counterKeys_nodup_merge {c : Counter} (d : Counter) (hc : (counterKeys c).Nodup) :
    (counterKeys (counterMerge c d)).Nodup := by
  induction d generalizing c with
  | nil => exact hc
  | cons p t ih =>
    simp only [counterMerge, List.foldl_cons]
    have h := ih (counterKeys_nodup_addN hc p.1 p.2)
    simpa [counterMerge] using h

theorem counterCount_of_mem {c : Counter} {k : String} {v : Nat}
    (hn : (counterKeys c).Nodup) (hm : (k, v) ∈ c) : counterCount c k = v := by
  induction c with
  | nil => simp at hm
  | cons p t ih =>
    have hck : counterKeys (p :: t) = p.1 :: counterKeys t := rfl
    rw [hck, List.nodup_cons] at hn
    cases List.mem_cons.mp hm with
    | inl he =>
      rw [← he]
      simp [counterCount]
    | inr hmt =>
      have hp : p.1 ≠ k := by
        intro he
        exact hn.1 (he ▸ (List.mem_map_of_mem _ hmt : (k, v).1 ∈ counterKeys t))
      simp only [counterCount, if_neg hp]
      exact ih hn.2 hmt

theorem insertDesc_perm (x : String × Nat) (l : List (String × Nat)) :
    (insertDesc x l).Perm (x :: l) := by
  induction l with
  | nil => exact List.Perm.refl _
  | cons y ys ih =>
    rw [insertDesc]
    by_cases h : y.2 ≤ x.2
    · rw [if_pos h]
    · rw [if_neg h]
      exact (ih.cons y).trans (List.Perm.swap x y ys)

theorem sortCountDesc_perm (l : List (String × Nat)) : (sortCountDesc l).Perm l := by
  induction l with
  | nil => exact List.Perm.refl _
  | cons x t ih =>
    have h1 : sortCountDesc (x :: t) = insertDesc x (sortCountDesc t) := rfl
    rw [h1]
    exact (insertDesc_perm x _).trans (ih.cons x)

theorem pairwise_ge_insertDesc {l : List (String × Nat)} (x : String × Nat)
    (h : l.Pairwise fun p q => q.2 ≤ p.2) :
    (insertDesc x l).Pairwise fun p q => q.2 ≤ p.2 := by
  induction l with
  | nil => simp [insertDesc]
  | cons y ys ih =>
    rw [insertDesc]
    rw [List.pairwise_cons] at h
    by_cases hc : y.2 ≤ x.2
    · rw [if_pos hc]
      refine List.Pairwise.cons ?_ (List.Pairwise.cons h.1 h.2)
      intro z hz
      cases List.mem_cons.mp hz with
      | inl he => exact he ▸ hc
      | inr hm => exact le_trans (h.1 z hm) hc
    · rw [if_neg hc]
      refine List.Pairwise.cons ?_ (ih h.2)
      intro z hz
      cases List.mem_cons.mp ((insertDesc_perm x ys).mem_iff.mp hz) with
      | inl he =>
        subst he
        exact le_of_lt (Nat.lt_of_not_le hc)
      | inr hm => exact h.1 z hm

theorem sortCountDesc_sorted (l : List (String × Nat)) :
    (sortCountDesc l).Pairwise fun p q => q.2 ≤ p.2 := by
  induction l with
  | nil => simp [sortCountDesc]
  | cons x t ih => exact pairwise_ge_insertDesc x ih

theorem filter_insertDesc (x : String × Nat) (l : List (String × Nat)) (v : Nat) :
    (insertDesc x l).filter (fun p => p.2 == v) =
      if x.2 = v then x :: l.filter (fun p => p.2 == v)
      else l.filter (fun p => p.2 == v) := by
  induction l with
  | nil =>
    rw [insertDesc]
    by_cases hx : x.2 = v
    · have hb : (x.2 == v) = true := by rw [beq_iff_eq]; exact hx
      simp [List.filter, hb, hx]
    · have hb : (x.2 == v) = false := by rw [beq_eq_false_iff_ne]; exact hx
      simp [List.filter, hb, hx]
  | cons y ys ih =>
    rw [insertDesc]
    by_cases hc : y.2 ≤ x.2
    · rw [if_pos hc]
      by_cases hx : x.2 = v
      · simp [List.filter_cons, hx]
      · simp [List.filter_cons, hx]
    · rw [if_neg hc]
      rw [List.filter_cons]
      by_cases hx : x.2 = v
      · have hyv : y.2 ≠ v := by
          intro he
          exact hc (by omega)
        simp [ih, hx, hyv, List.filter_cons]
      · simp [ih, hx, List.filter_cons]

theorem sortCountDesc_filter (l : List (String × Nat)) (v : Nat) :
    (sortCountDesc l).filter (fun p => p.2 == v) = l.filter (fun p => p.2 == v) := by
  induction l with
  | nil => rfl
  | cons x t ih =>
    have h1 : sortCountDesc (x :: t) = insertDesc x (sortCountDesc t) := rfl
    rw [h1, filter_insertDesc, List.filter_cons]
    by_cases hx : x.2 = v
    · simp [hx, ih]
    · simp [hx, ih]

theorem mostCommon_sublist_sort (c : Counter) (n : Nat) :
    (mostCommon c n).Sublist (sortCountDesc c) := List.take_sublist n (sortCountDesc c)

theorem mostCommon_sorted (c : Counter) (n : Nat) :
    (mostCommon c n).Pairwise fun p q => q.2 ≤ p.2 :=
  List.Pairwise.sublist (mostCommon_sublist_sort c n) (sortCountDesc_sorted c)

theorem mem_of_mem_mostCommon {c : Counter} {n : Nat} {p : String × Nat}
    (h : p ∈ mostCommon c n) : p ∈ c :=
  (sortCountDesc_perm c).mem_iff.mp ((mostCommon_sublist_sort c n).mem h)

theorem mostCommon_length (c : Counter) (n : Nat) : (mostCommon c n).length ≤ n := by
  have h := List.length_take n (sortCountDesc c)
  rw [mostCommon, h]
  exact Nat.min_le_left ..

theorem mostCommon_keys_nodup {c : Counter} (hn : (counterKeys c).Nodup) (n : Nat) :
    ((mostCommon c n).map fun p => p.1).Nodup := by
  have hperm : ((sortCountDesc c).map fun p => p.1).Perm (c.map fun p => p.1) :=
    (sortCountDesc_perm c).map _
  have hsort : ((sortCountDesc c).map fun p => p.1).Nodup := hperm.nodup_iff.mpr hn
  exact List.Nodup.sublist ((mostCommon_sublist_sort c n).map _) hsort

theorem mostCommon_filter_eq (c : Counter) (n : Nat) (v : Nat) :
    (mostCommon c n).filter (fun p => p.2 == v)
      ++ ((sortCountDesc c).drop n).filter (fun p => p.2 == v)
      = c.filter (fun p => p.2 == v) := by
  rw [mostCommon, ← List.filter_append, List.take_append_drop, sortCountDesc_filter]

theorem mostCommon_top {c : Counter} {n : Nat} {p : String × Nat}
    (hp : p ∈ c) (hnp : p ∉ mostCommon c n) : ∀ q ∈ mostCommon c n, p.2 ≤ q.2 := by
  intro q hq
  have hsp := sortCountDesc_sorted c
  have hps : p ∈ sortCountDesc c := (sortCountDesc_perm c).mem_iff.mpr hp
  rw [← List.take_append_drop n (sortCountDesc c)] at hps
  have hpd : p ∈ (sortCountDesc c).drop n := by
    cases List.mem_append.mp hps with
    | inl h0 => exact absurd h0 hnp
    | inr h0 => exact h0
  rw [← List.take_append_drop n (sortCountDesc c), List.pairwise_append] at hsp
  exact hsp.2.2 q hq p hpd

theorem pair_snd_eq_count {ws : List String} {p : String × Nat}
    (h : p ∈ counterOfList ws) : p.2 = ws.count p.1 := by
  have hn := counterKeys_nodup_ofList ws
  have h1 : counterCount (counterOfList ws) p.1 = p.2 := counterCount_of_mem hn h
  rw [← h1, counterCount_ofList]

theorem mem_of_mem_counterOfList {ws : List String} {p : String × Nat}
    (h : p ∈ counterOfList ws) : p.1 ∈ ws := by
  have hk : p.1 ∈ counterKeys (counterOfList ws) := List.mem_map_of_mem _ h
  rw [counterKeys_ofList] at hk
  simp only [pyDedup] at hk
  exact (mem_pyDedupAux.mp hk).1

theorem runsAux_subset (l : List Char) :
    (∀ ch ∈ (runsAux l).1, ch ∈ l) ∧ ∀ r ∈ (runsAux l).2, ∀ ch ∈ r, ch ∈ l := by
  induction l with
  | nil => exact ⟨by simp [runsAux], by simp [runsAux]⟩
  | cons c cs ih =>
    simp only [runsAux]
    by_cases hw : isWordChar c = true
    · rw [if_pos hw]
      constructor
      · intro ch hch
        cases List.mem_cons.mp hch with
        | inl he => exact he ▸ List.mem_cons_self ..
        | inr hm => exact List.mem_cons_of_mem _ (ih.1 ch hm)
      · intro r hr ch hch
        exact List.mem_cons_of_mem _ (ih.2 r hr ch hch)
    · rw [if_neg hw]
      constructor
      · intro ch hch
        simp at hch
      · intro r hr ch hch
        by_cases he : (runsAux cs).1.isEmpty
        · rw [if_pos he] at hr
          exact List.mem_cons_of_mem _ (ih.2 r hr ch hch)
        · rw [if_neg he] at hr
          cases List.mem_cons.mp hr with
          | inl h0 => exact List.mem_cons_of_mem _ (ih.1 ch (h0 ▸ hch))
          | inr h1 => exact List.mem_cons_of_mem _ (ih.2 r h1 ch hch)

theorem wordRuns_subset {l r : List Char} (hr : r ∈ wordRuns l) : ∀ ch ∈ r, ch ∈ l := by
  have h := runsAux_subset l
  simp only [wordRuns] at hr
  by_cases he : (runsAux l).1.isEmpty
  · rw [if_pos he] at hr
    exact h.2 r hr
  · rw [if_neg he] at hr
    cases List.mem_cons.mp hr with
    | inl h0 => exact fun ch hch => h.1 ch (h0 ▸ hch)
    | inr h1 => exact h.2 r h1

theorem topicCandidates_spec {text : List Char} {w : String} (h : w ∈ topicCandidates text) :
    5 ≤ w.length ∧ (∀ ch ∈ w.data, isLowerChar ch = true) ∧ w ∉ topic_stop := by
  simp only [topicCandidates] at h
  rw [List.mem_filter] at h
  obtain ⟨hmap, hstop⟩ := h
  rw [List.mem_map] at hmap
  obtain ⟨r, hr, hw⟩ := hmap
  rw [List.mem_filter] at hr
  obtain ⟨hrun, hpred⟩ := hr
  rw [Bool.and_eq_true] at hpred
  obtain ⟨hlen, halpha⟩ := hpred
  subst hw
  refine ⟨of_decide_eq_true hlen, ?_, ?_⟩
  · intro ch hch
    have halnum : isAlphaChar ch = true := by
      rw [List.all_eq_true] at halpha
      exact halpha ch hch
    have hmem : ch ∈ text.map asciiLower := wordRuns_subset hrun ch hch
    rw [List.mem_map] at hmem
    obtain ⟨d, _, hd⟩ := hmem
    rw [← hd] at halnum ⊢
    exact lower_of_alpha_asciiLower halnum
  · intro hmem
    rw [Bool.not_eq_true'] at hstop
    have hx := (contains_iff topic_stop (String.mk r)).mpr hmem
    rw [hstop] at hx
    exact Bool.false_ne_true hx

/-- C8: for every input text, topic extraction returns at most `top_n`
(default 10) distinct words, each 5 or more lowercase letters, none in the
topic stop-set, ordered by descending occurrence count in the candidate word
list, ties broken by first-encountered order (the extracted words of any fixed
count form a prefix of the first-occurrence ordering of the candidates of that
count). -/
theorem claim_C8 (text : List Char) (n : Nat) :
    (find_topics text n).length ≤ n ∧
    (find_topics text n).Nodup ∧
    (∀ w ∈ find_topics text n,
        5 ≤ w.length ∧ (∀ ch ∈ w.data, isLowerChar ch = true) ∧ w ∉ topic_stop) ∧
    List.Pairwise
      (fun w1 w2 => (topicCandidates text).count w2 ≤ (topicCandidates text).count w1)
      (find_topics text n) ∧
    (∀ v : Nat,
      (find_topics text n).filter (fun w => (topicCandidates text).count w == v) <+:
        (pyDedup (topicCandidates text)).filter
          (fun w => (topicCandidates text).count w == v)) := by
  refine ⟨?_, ?_, ?_, ?_, ?_⟩
  · simp only [find_topics, List.length_map]
    exact mostCommon_length ..
  · exact mostCommon_keys_nodup (counterKeys_nodup_ofList _) n
  · intro w hw
    simp only [find_topics, List.mem_map] at hw
    obtain ⟨p, hp, hpw⟩ := hw
    subst hpw
    exact topicCandidates_spec (mem_of_mem_counterOfList (mem_of_mem_mostCommon hp))
  · simp only [find_topics]
    rw [List.pairwise_map]
    refine List.Pairwise.imp_of_mem ?_ (mostCommon_sorted (counterOfList (topicCandidates text)) n)
    intro a b ha hb hr
    have ha2 := pair_snd_eq_count (mem_of_mem_mostCommon ha)
    have hb2 := pair_snd_eq_count (mem_of_mem_mostCommon hb)
    rw [← ha2, ← hb2]
    exact hr
  · intro v
    have hcongr : ∀ (l : List (String × Nat)), (∀ p ∈ l, p ∈ counterOfList (topicCandidates text)) →
        l.filter ((fun w => (topicCandidates text).count w == v) ∘ fun p => p.1) =
          l.filter fun p => p.2 == v := by
      intro l hl
      apply List.filter_congr
      intro p hp
      simp only [Function.comp]
      rw [pair_snd_eq_count (hl p hp)]
    have e1 : (find_topics text n).filter (fun w => (topicCandidates text).count w == v) =
        ((mostCommon (counterOfList (topicCandidates text)) n).filter fun p => p.2 == v).map
          fun p => p.1 := by
      simp only [find_topics]
      rw [List.filter_map, hcongr _ fun p hp => mem_of_mem_mostCommon hp]
    have e2 : (pyDedup (topicCandidates text)).filter
          (fun w => (topicCandidates text).count w == v) =
        ((counterOfList (topicCandidates text)).filter fun p => p.2 == v).map fun p => p.1 := by
      rw [← counterKeys_ofList]
      simp only [counterKeys]
      rw [List.filter_map, hcongr _ fun p hp => hp]
    rw [e1, e2]
    refine ⟨(((sortCountDesc (counterOfList (topicCandidates text))).drop n).filter
      (fun p => p.2 == v)).map fun p => p.1, ?_⟩
    rw [← List.map_append, mostCommon_filter_eq]

theorem string_append_inj {p x y : String} (h : p ++ x = p ++ y) : x = y := by
  have hd := congrArg String.data h
  rw [String.data_append, String.data_append] at hd
  have h2 := List.append_cancel_left hd
  cases x
  cases y
  exact congrArg String.mk (by simpa using h2)

theorem file_ne_entity (x y : String) : "file:" ++ x ≠ "entity:" ++ y := by
  intro h
  have hd := congrArg String.data h
  rw [String.data_append, String.data_append] at hd
  have h0 := congrArg List.head? hd
  simp at h0

theorem file_ne_topic (x y : String) : "file:" ++ x ≠ "topic:" ++ y := by
  intro h
  have hd := congrArg String.data h
  rw [String.data_append, String.data_append] at hd
  have h0 := congrArg List.head? hd
  simp at h0

theorem entity_ne_topic (x y : String) : "entity:" ++ x ≠ "topic:" ++ y := by
  intro h
  have hd := congrArg String.data h
  rw [String.data_append, String.data_append] at hd
  have h0 := congrArg List.head? hd
  simp at h0

theorem any_key_iff {β : Type} (l : List (String × β)) (k : String) :
    (l.any fun p => p.1 == k) = true ↔ k ∈ l.map fun p => p.1 := by
  rw [List.any_eq_true]
  constructor
  · intro h
    obtain ⟨p, hp, he⟩ := h
    rw [beq_iff_eq] at he
    rw [← he]
    exact List.mem_map_of_mem _ hp
  · intro h
    rw [List.mem_map] at h
    obtain ⟨p, hp, he⟩ := h
    exact ⟨p, hp, by rw [beq_iff_eq]; exact he⟩

theorem any_id_iff (l : List FileNode) (k : String) :
    (l.any fun m => m.id == k) = true ↔ k ∈ l.map FileNode.id := by
  rw [List.any_eq_true]
  constructor
  · intro h
    obtain ⟨m, hm, he⟩ := h
    rw [beq_iff_eq] at he
    rw [← he]
    exact List.mem_map_of_mem _ hm
  · intro h
    rw [List.mem_map] at h
    obtain ⟨m, hm, he⟩ := h
    exact ⟨m, hm, by rw [beq_iff_eq]; exact he⟩

theorem any_tid_iff (l : List TermNode) (k : String) :
    (l.any fun m => m.id == k) = true ↔ k ∈ l.map TermNode.id := by
  rw [List.any_eq_true]
  constructor
  · intro h
    obtain ⟨m, hm, he⟩ := h
    rw [beq_iff_eq] at he
    rw [← he]
    exact List.mem_map_of_mem _ hm
  · intro h
    rw [List.mem_map] at h
    obtain ⟨m, hm, he⟩ := h
    exact ⟨m, hm, by rw [beq_iff_eq]; exact he⟩

theorem dictInsertText_fresh {l : List (String × List Char)} {k : String} (v : List Char)
    (h : k ∉ l.map fun p => p.1) : dictInsertText l k v = l ++ [(k, v)] := by
  rw [dictInsertText, if_neg fun hb => h ((any_key_iff l k).mp hb)]

theorem dictInsertFileNode_fresh {l : List FileNode} {n : FileNode}
    (h : n.id ∉ l.map FileNode.id) : dictInsertFileNode l n = l ++ [n] := by
  rw [dictInsertFileNode, if_neg fun hb => h ((any_id_iff l n.id).mp hb)]

theorem foldl_addEntityEdge_edges (ec : Counter) (fid : String) (s : KG) :
    (ec.foldl (addEntityEdge fid) s).edges = s.edges ++ entityEdgesOf fid ec := by
  induction ec generalizing s with
  | nil => simp [entityEdgesOf]
  | cons p t ih =>
    rw [List.foldl_cons, ih]
    have h1 : (addEntityEdge fid s p).edges =
        s.edges ++ [Edge.fileContainsEntity fid ("entity:" ++ p.1) p.2] := by
      simp only [addEntityEdge]
      by_cases hb : (s.entityNodes.any fun n => n.id == ("entity:" ++ p.1)) = true
      · rw [if_pos hb]
      · rw [if_neg hb]
    rw [h1, List.append_assoc]
    simp [entityEdgesOf]

theorem foldl_addTopicEdge_edges (tc : Counter) (fid : String) (s : KG) :
    (tc.foldl (addTopicEdge fid) s).edges = s.edges ++ topicEdgesOf fid tc := by
  induction tc generalizing s with
  | nil => simp [topicEdgesOf]
  | cons p t ih =>
    rw [List.foldl_cons, ih]
    have h1 : (addTopicEdge fid s p).edges =
        s.edges ++ [Edge.fileContainsTopic fid ("topic:" ++ p.1) p.2] := by
      simp only [addTopicEdge]
      by_cases hb : (s.topicNodes.any fun n => n.id == ("topic:" ++ p.1)) = true
      · rw [if_pos hb]
      · rw [if_neg hb]
    rw [h1, List.append_assoc]
    simp [topicEdgesOf]

theorem foldl_addEntityEdge_fileNodes (ec : Counter) (fid : String) (s : KG) :
    (ec.foldl (addEntityEdge fid) s).fileNodes = s.fileNodes := by
  induction ec generalizing s with
  | nil => rfl
  | cons p t ih =>
    rw [List.foldl_cons, ih]
    simp only [addEntityEdge]
    by_cases hb : (s.entityNodes.any fun n => n.id == ("entity:" ++ p.1)) = true
    · rw [if_pos hb]
    · rw [if_neg hb]

theorem foldl_addEntityEdge_topicNodes (ec : Counter) (fid : String) (s : KG) :
    (ec.foldl (addEntityEdge fid) s).topicNodes = s.topicNodes := by
  induction ec generalizing s with
  | nil => rfl
  | cons p t ih =>
    rw [List.foldl_cons, ih]
    simp only [addEntityEdge]
    by_cases hb : (s.entityNodes.any fun n => n.id == ("entity:" ++ p.1)) = true
    · rw [if_pos hb]
    · rw [if_neg hb]

theorem foldl_addEntityEdge_file_texts (ec : Counter) (fid : String) (s : KG) :
    (ec.foldl (addEntityEdge fid) s).file_texts = s.file_texts := by
  induction ec generalizing s with
  | nil => rfl
  | cons p t ih =>
    rw [List.foldl_cons, ih]
    simp only [addEntityEdge]
    by_cases hb : (s.entityNodes.any fun n => n.id == ("entity:" ++ p.1)) = true
    · rw [if_pos hb]
    · rw [if_neg hb]

theorem foldl_addEntityEdge_entity_global (ec : Counter) (fid : String) (s : KG) :
    (ec.foldl (addEntityEdge fid) s).entity_global_counts = s.entity_global_counts := by
  induction ec generalizing s with
  | nil => rfl
  | cons p t ih =>
    rw [List.foldl_cons, ih]
    simp only [addEntityEdge]
    by_cases hb : (s.entityNodes.any fun n => n.id == ("entity:" ++ p.1)) = true
    · rw [if_pos hb]
    · rw [if_neg hb]

theorem foldl_addEntityEdge_topic_global (ec : Counter) (fid : String) (s : KG) :
    (ec.foldl (addEntityEdge fid) s).topic_global_counts = s.topic_global_counts := by
  induction ec generalizing s with
  | nil => rfl
  | cons p t ih =>
    rw [List.foldl_cons, ih]
    simp only [addEntityEdge]
    by_cases hb : (s.entityNodes.any fun n => n.id == ("entity:" ++ p.1)) = true
    · rw [if_pos hb]
    · rw [if_neg hb]

theorem foldl_addTopicEdge_fileNodes (tc : Counter) (fid : String) (s : KG) :
    (tc.foldl (addTopicEdge fid) s).fileNodes = s.fileNodes := by
  induction tc generalizing s with
  | nil => rfl
  | cons p t ih =>
    rw [List.foldl_cons, ih]
    simp only [addTopicEdge]
    by_cases hb : (s.topicNodes.any fun n => n.id == ("topic:" ++ p.1)) = true
    · rw [if_pos hb]
    · rw [if_neg hb]

theorem foldl_addTopicEdge_entityNodes (tc : Counter) (fid : String) (s : KG) :
    (tc.foldl (addTopicEdge fid) s).entityNodes = s.entityNodes := by
  induction tc generalizing s with
  | nil => rfl
  | cons p t ih =>
    rw [List.foldl_cons, ih]
    simp only [addTopicEdge]
    by_cases hb : (s.topicNodes.any fun n => n.id == ("topic:" ++ p.1)) = true
    · rw [if_pos hb]
    · rw [if_neg hb]

theorem foldl_addTopicEdge_file_texts (tc : Counter) (fid : String) (s : KG) :
    (tc.foldl (addTopicEdge fid) s).file_texts = s.file_texts := by
  induction tc generalizing s with
  | nil => rfl
  | cons p t ih =>
    rw [List.foldl_cons, ih]
    simp only [addTopicEdge]
    by_cases hb : (s.topicNodes.any fun n => n.id == ("topic:" ++ p.1)) = true
    · rw [if_pos hb]
    · rw [if_neg hb]

theorem foldl_addTopicEdge_entity_global (tc : Counter) (fid : String) (s : KG) :
    (tc.foldl (addTopicEdge fid) s).entity_global_counts = s.entity_global_counts := by
  induction tc generalizing s with
  | nil => rfl
  | cons p t ih =>
    rw [List.foldl_cons, ih]
    simp only [addTopicEdge]
    by_cases hb : (s.topicNodes.any fun n => n.id == ("topic:" ++ p.1)) = true
    · rw [if_pos hb]
    · rw [if_neg hb]

theorem foldl_addTopicEdge_topic_global (tc : Counter) (fid : String) (s : KG) :
    (tc.foldl (addTopicEdge fid) s).topic_global_counts = s.topic_global_counts := by
  induction tc generalizing s with
  | nil => rfl
  | cons p t ih =>
    rw [List.foldl_cons, ih]
    simp only [addTopicEdge]
    by_cases hb : (s.topicNodes.any fun n => n.id == ("topic:" ++ p.1)) = true
    · rw [if_pos hb]
    · rw [if_neg hb]

theorem map_id_replace (l : List FileNode) (n : FileNode) :
    ((l.map fun m => if m.id == n.id then n else m).map FileNode.id) = l.map FileNode.id := by
  induction l with
  | nil => rfl
  | cons m t ih =>
    simp only [List.map_cons, ih]
    congr 1
    by_cases hb : (m.id == n.id) = true
    · rw [if_pos hb]
      rw [beq_iff_eq] at hb
      exact hb.symm
    · rw [if_neg hb]

theorem dictInsertFileNode_ids (l : List FileNode) (n : FileNode) :
    ∀ x, x ∈ (dictInsertFileNode l n).map FileNode.id ↔ x ∈ l.map FileNode.id ∨ x = n.id := by
  intro x
  rw [dictInsertFileNode]
  by_cases hb : (l.any fun m => m.id == n.id) = true
  · rw [if_pos hb, map_id_replace]
    have hn : n.id ∈ l.map FileNode.id := (any_id_iff l n.id).mp hb
    constructor
    · exact Or.inl
    · intro h
      cases h with
      | inl h0 => exact h0
      | inr h0 => exact h0 ▸ hn
  · rw [if_neg hb]
    simp [List.mem_append]

theorem addEntityEdge_entityIds (fid : String) (s : KG) (p : String × Nat) :
    ∀ y, y ∈ entityIds (addEntityEdge fid s p) ↔
      y ∈ entityIds s ∨ y = "entity:" ++ p.1 := by
  intro y
  simp only [addEntityEdge, entityIds]
  by_cases hb : (s.entityNodes.any fun n => n.id == ("entity:" ++ p.1)) = true
  · rw [if_pos hb]
    have hn : ("entity:" ++ p.1) ∈ s.entityNodes.map TermNode.id := (any_tid_iff _ _).mp hb
    constructor
    · exact Or.inl
    · intro h
      cases h with
      | inl h0 => exact h0
      | inr h0 => exact h0 ▸ hn
  · rw [if_neg hb]
    simp [List.mem_append]

theorem addTopicEdge_topicIds (fid : String) (s : KG) (p : String × Nat) :
    ∀ y, y ∈ topicIds (addTopicEdge fid s p) ↔
      y ∈ topicIds s ∨ y = "topic:" ++ p.1 := by
  intro y
  simp only [addTopicEdge, topicIds]
  by_cases hb : (s.topicNodes.any fun n => n.id == ("topic:" ++ p.1)) = true
  · rw [if_pos hb]
    have hn : ("topic:" ++ p.1) ∈ s.topicNodes.map TermNode.id := (any_tid_iff _ _).mp hb
    constructor
    · exact Or.inl
    · intro h
      cases h with
      | inl h0 => exact h0
      | inr h0 => exact h0 ▸ hn
  · rw [if_neg hb]
    simp [List.mem_append]

theorem foldl_addEntityEdge_entityIds (ec : Counter) (fid : String) (s : KG) :
    ∀ x, x ∈ entityIds (ec.foldl (addEntityEdge fid) s) ↔
      x ∈ entityIds s ∨ ∃ p ∈ ec, x = "entity:" ++ p.1 := by
  induction ec generalizing s with
  | nil => intro x; simp
  | cons p t ih =>
    intro x
    rw [List.foldl_cons, ih, addEntityEdge_entityIds]
    constructor
    · intro h
      rcases h with (h1 | h1) | ⟨q, hq, he⟩
      · exact Or.inl h1
      · exact Or.inr ⟨p, List.mem_cons_self .., h1⟩
      · exact Or.inr ⟨q, List.mem_cons_of_mem _ hq, he⟩
    · intro h
      rcases h with h1 | ⟨q, hq, he⟩
      · exact Or.inl (Or.inl h1)
      · rcases List.mem_cons.mp hq with hq1 | hq2
        · subst hq1; exact Or.inl (Or.inr he)
        · exact Or.inr ⟨q, hq2, he⟩

theorem foldl_addTopicEdge_topicIds (tc : Counter) (fid : String) (s : KG) :
    ∀ x, x ∈ topicIds (tc.foldl (addTopicEdge fid) s) ↔
      x ∈ topicIds s ∨ ∃ p ∈ tc, x = "topic:" ++ p.1 := by
  induction tc generalizing s with
  | nil => intro x; simp
  | cons p t ih =>
    intro x
    rw [List.foldl_cons, ih, addTopicEdge_topicIds]
    constructor
    · intro h
      rcases h with (h1 | h1) | ⟨q, hq, he⟩
      · exact Or.inl h1
      · exact Or.inr ⟨p, List.mem_cons_self .., h1⟩
      · exact Or.inr ⟨q, List.mem_cons_of_mem _ hq, he⟩
    · intro h
      rcases h with h1 | ⟨q, hq, he⟩
      · exact Or.inl (Or.inl h1)
      · rcases List.mem_cons.mp hq with hq1 | hq2
        · subst hq1; exact Or.inl (Or.inr he)
        · exact Or.inr ⟨q, hq2, he⟩

theorem exists_pair_counterOfList {ws : List String} {k : String} :
    (∃ v, (k, v) ∈ counterOfList ws) ↔ k ∈ ws := by
  constructor
  · intro h
    obtain ⟨v, hv⟩ := h
    exact mem_of_mem_counterOfList hv
  · intro h
    have hk : k ∈ counterKeys (counterOfList ws) := by
      rw [counterKeys_ofList]
      simp only [pyDedup]
      exact mem_pyDedupAux.mpr ⟨h, by simp⟩
    simp only [counterKeys, List.mem_map] at hk
    obtain ⟨p, hp, he⟩ := hk
    exact ⟨p.2, by rw [← he]; exact hp⟩

theorem exists_key_counterOfList (ws : List String) (g : String → String) (x : String) :
    (∃ p ∈ counterOfList ws, x = g p.1) ↔ ∃ e ∈ ws, x = g e := by
  constructor
  · intro h
    obtain ⟨p, hp, he⟩ := h
    exact ⟨p.1, mem_of_mem_counterOfList hp, he⟩
  · intro h
    obtain ⟨e, he, hx⟩ := h
    obtain ⟨v, hv⟩ := exists_pair_counterOfList.mpr he
    exact ⟨(e, v), hv, hx⟩

theorem step1_not_processed {f : InputFile} (s : KG) (hp : processedFile f = false) :
    step1 s f = s := by
  rw [step1, if_neg (by rw [hp]; exact Bool.false_ne_true)]

theorem step1_processed {f : InputFile} (s : KG) (hp : processedFile f = true) :
    step1 s f =
      (counterOfList (find_topics f.text)).foldl (addTopicEdge ("file:" ++ f.path))
        ((counterOfList (find_entities f.text)).foldl (addEntityEdge ("file:" ++ f.path))
          { s with
            fileNodes := dictInsertFileNode s.fileNodes ⟨"file:" ++ f.path, f.name, f.path⟩,
            file_texts := dictInsertText s.file_texts ("file:" ++ f.path) f.text,
            entity_global_counts :=
              counterMerge s.entity_global_counts (counterOfList (find_entities f.text)),
            topic_global_counts :=
              counterMerge s.topic_global_counts (counterOfList (find_topics f.text)) }) := by
  rw [step1, if_pos hp]

theorem step1_edges (s : KG) (f : InputFile) :
    (step1 s f).edges = s.edges ++ if processedFile f then fileBlock f else [] := by
  by_cases hp : processedFile f = true
  · rw [step1_processed s hp, foldl_addTopicEdge_edges, foldl_addEntityEdge_edges, if_pos hp]
    simp [fileBlock, List.append_assoc]
  · have hp2 : processedFile f = false := by rw [Bool.eq_false_iff]; exact hp
    rw [step1_not_processed s hp2, if_neg hp]
    simp

theorem step1_fileNodes (s : KG) (f : InputFile) :
    (step1 s f).fileNodes =
      if processedFile f then
        dictInsertFileNode s.fileNodes ⟨"file:" ++ f.path, f.name, f.path⟩
      else s.fileNodes := by
  by_cases hp : processedFile f = true
  · rw [step1_processed s hp, foldl_addTopicEdge_fileNodes, foldl_addEntityEdge_fileNodes,
      if_pos hp]
  · have hp2 : processedFile f = false := by rw [Bool.eq_false_iff]; exact hp
    rw [step1_not_processed s hp2, if_neg hp]

theorem step1_file_texts (s : KG) (f : InputFile) :
    (step1 s f).file_texts =
      if processedFile f then dictInsertText s.file_texts ("file:" ++ f.path) f.text
      else s.file_texts := by
  by_cases hp : processedFile f = true
  · rw [step1_processed s hp, foldl_addTopicEdge_file_texts, foldl_addEntityEdge_file_texts,
      if_pos hp]
  · have hp2 : processedFile f = false := by rw [Bool.eq_false_iff]; exact hp
    rw [step1_not_processed s hp2, if_neg hp]

theorem step1_entity_global (s : KG) (f : InputFile) :
    (step1 s f).entity_global_counts =
      if processedFile f then
        counterMerge s.entity_global_counts (counterOfList (find_entities f.text))
      else s.entity_global_counts := by
  by_cases hp : processedFile f = true
  · rw [step1_processed s hp, foldl_addTopicEdge_entity_global,
      foldl_addEntityEdge_entity_global, if_pos hp]
  · have hp2 : processedFile f = false := by rw [Bool.eq_false_iff]; exact hp
    rw [step1_not_processed s hp2, if_neg hp]

theorem step1_topic_global (s : KG) (f : InputFile) :
    (step1 s f).topic_global_counts =
      if processedFile f then
        counterMerge s.topic_global_counts (counterOfList (find_topics f.text))
      else s.topic_global_counts := by
  by_cases hp : processedFile f = true
  · rw [step1_processed s hp, foldl_addTopicEdge_topic_global,
      foldl_addEntityEdge_topic_global, if_pos hp]
  · have hp2 : processedFile f = false := by rw [Bool.eq_false_iff]; exact hp
    rw [step1_not_processed s hp2, if_neg hp]

theorem step1_entityIds (s : KG) (f : InputFile) :
    ∀ x, x ∈ entityIds (step1 s f) ↔
      x ∈ entityIds s ∨
        (processedFile f = true ∧ ∃ e ∈ find_entities f.text, x = "entity:" ++ e) := by
  intro x
  by_cases hp : processedFile f = true
  · rw [step1_processed s hp]
    have h1 : ∀ g : KG, entityIds
        ((counterOfList (find_topics f.text)).foldl (addTopicEdge ("file:" ++ f.path)) g) =
        entityIds g := by
      intro g
      simp only [entityIds, foldl_addTopicEdge_entityNodes]
    rw [h1, foldl_addEntityEdge_entityIds]
    have h2 : entityIds { s with
        fileNodes := dictInsertFileNode s.fileNodes ⟨"file:" ++ f.path, f.name, f.path⟩,
        file_texts := dictInsertText s.file_texts ("file:" ++ f.path) f.text,
        entity_global_counts :=
          counterMerge s.entity_global_counts (counterOfList (find_entities f.text)),
        topic_global_counts :=
          counterMerge s.topic_global_counts (counterOfList (find_topics f.text)) } =
        entityIds s := rfl
    rw [h2, exists_key_counterOfList]
    constructor
    · intro h
      cases h with
      | inl h0 => exact Or.inl h0
      | inr h0 => exact Or.inr ⟨hp, h0⟩
    · intro h
      cases h with
      | inl h0 => exact Or.inl h0
      | inr h0 => exact Or.inr h0.2
  · have hp2 : processedFile f = false := by rw [Bool.eq_false_iff]; exact hp
    rw [step1_not_processed s hp2]
    constructor
    · exact Or.inl
    · intro h
      cases h with
      | inl h0 => exact h0
      | inr h0 => exact absurd h0.1 hp

theorem step1_topicIds (s : KG) (f : InputFile) :
    ∀ x, x ∈ topicIds (step1 s f) ↔
      x ∈ topicIds s ∨
        (processedFile f = true ∧ ∃ e ∈ find_topics f.text, x = "topic:" ++ e) := by
  intro x
  by_cases hp : processedFile f = true
  · rw [step1_processed s hp, foldl_addTopicEdge_topicIds]
    have h1 : ∀ g : KG, topicIds
        ((counterOfList (find_entities f.text)).foldl (addEntityEdge ("file:" ++ f.path)) g) =
        topicIds g := by
      intro g
      simp only [topicIds, foldl_addEntityEdge_topicNodes]
    rw [h1]
    have h2 : topicIds { s with
        fileNodes := dictInsertFileNode s.fileNodes ⟨"file:" ++ f.path, f.name, f.path⟩,
        file_texts := dictInsertText s.file_texts ("file:" ++ f.path) f.text,
        entity_global_counts :=
          counterMerge s.entity_global_counts (counterOfList (find_entities f.text)),
        topic_global_counts :=
          counterMerge s.topic_global_counts (counterOfList (find_topics f.text)) } =
        topicIds s := rfl
    rw [h2, exists_key_counterOfList]
    constructor
    · intro h
      cases h with
      | inl h0 => exact Or.inl h0
      | inr h0 => exact Or.inr ⟨hp, h0⟩
    · intro h
      cases h with
      | inl h0 => exact Or.inl h0
      | inr h0 => exact Or.inr h0.2
  · have hp2 : processedFile f = false := by rw [Bool.eq_false_iff]; exact hp
    rw [step1_not_processed s hp2]
    constructor
    · exact Or.inl
    · intro h
      cases h with
      | inl h0 => exact h0
      | inr h0 => exact absurd h0.1 hp

theorem step1_fileIds (s : KG) (f : InputFile) :
    ∀ x, x ∈ fileIds (step1 s f) ↔
      x ∈ fileIds s ∨ (processedFile f = true ∧ x = "file:" ++ f.path) := by
  intro x
  rw [fileIds, step1_fileNodes]
  by_cases hp : processedFile f = true
  · rw [if_pos hp]
    rw [show ∀ l n, (dictInsertFileNode l n).map FileNode.id = _ from fun l n => rfl]
    have h1 := dictInsertFileNode_ids s.fileNodes ⟨"file:" ++ f.path, f.name, f.path⟩ x
    rw [h1]
    constructor
    · intro h
      cases h with
      | inl h0 => exact Or.inl h0
      | inr h0 => exact Or.inr ⟨hp, h0⟩
    · intro h
      cases h with
      | inl h0 => exact Or.inl h0
      | inr h0 => exact Or.inr h0.2
  · rw [if_neg hp]
    constructor
    · exact Or.inl
    · intro h
      cases h with
      | inl h0 => exact h0
      | inr h0 => exact absurd h0.1 hp

theorem registeredFiles_cons_pos {f : InputFile} (t : List InputFile)
    (hp : processedFile f = true) : registeredFiles (f :: t) = f :: registeredFiles t := by
  simp [registeredFiles, List.filter_cons, hp]

theorem registeredFiles_cons_neg {f : InputFile} (t : List InputFile)
    (hp : processedFile f = false) : registeredFiles (f :: t) = registeredFiles t := by
  simp [registeredFiles, List.filter_cons, hp]

theorem foldl_step1_edges (files : List InputFile) (s : KG) :
    (files.foldl step1 s).edges = s.edges ++ (registeredFiles files).flatMap fileBlock := by
  induction files generalizing s with
  | nil => simp [registeredFiles]
  | cons f t ih =>
    rw [List.foldl_cons, ih, step1_edges]
    by_cases hp : processedFile f = true
    · rw [if_pos hp, registeredFiles_cons_pos t hp]
      simp [List.append_assoc]
    · have hp2 : processedFile f = false := by rw [Bool.eq_false_iff]; exact hp
      rw [if_neg hp, registeredFiles_cons_neg t hp2]
      simp

theorem foldl_step1_file_texts (files : List InputFile) (s : KG)
    (hfresh : ∀ f ∈ files, ("file:" ++ f.path) ∉ textKeys s)
    (hnd : pathsNodup files) :
    (files.foldl step1 s).file_texts =
      s.file_texts ++ (registeredFiles files).map fun f => ("file:" ++ f.path, f.text) := by
  induction files generalizing s with
  | nil => simp [registeredFiles]
  | cons f t ih =>
    rw [pathsNodup, List.map_cons, List.nodup_cons] at hnd
    rw [List.foldl_cons]
    by_cases hp : processedFile f = true
    · have hs2 : (step1 s f).file_texts = s.file_texts ++ [("file:" ++ f.path, f.text)] := by
        rw [step1_file_texts, if_pos hp,
          dictInsertText_fresh _ (hfresh f (List.mem_cons_self ..))]
      have hfresh2 : ∀ g ∈ t, ("file:" ++ g.path) ∉ textKeys (step1 s f) := by
        intro g hg hmem
        rw [textKeys, hs2, List.map_append] at hmem
        cases List.mem_append.mp hmem with
        | inl h0 => exact hfresh g (List.mem_cons_of_mem _ hg) h0
        | inr h0 =>
          simp only [List.map_cons, List.map_nil, List.mem_singleton] at h0
          have he : g.path = f.path := string_append_inj h0
          exact hnd.1 (he ▸ List.mem_map_of_mem InputFile.path hg)
      rw [ih (step1 s f) hfresh2 hnd.2, hs2, registeredFiles_cons_pos t hp]
      simp [List.append_assoc]
    · have hp2 : processedFile f = false := by rw [Bool.eq_false_iff]; exact hp
      rw [step1_not_processed s hp2]
      rw [ih s (fun g hg => hfresh g (List.mem_cons_of_mem _ hg)) hnd.2,
        registeredFiles_cons_neg t hp2]

theorem foldl_step1_fileNodes (files : List InputFile) (s : KG)
    (hfresh : ∀ f ∈ files, ("file:" ++ f.path) ∉ fileIds s)
    (hnd : pathsNodup files) :
    (files.foldl step1 s).fileNodes =
      s.fileNodes ++ (registeredFiles files).map fun f =>
        FileNode.mk ("file:" ++ f.path) f.name f.path := by
  induction files generalizing s with
  | nil => simp [registeredFiles]
  | cons f t ih =>
    rw [pathsNodup, List.map_cons, List.nodup_cons] at hnd
    rw [List.foldl_cons]
    by_cases hp : processedFile f = true
    · have hs2 : (step1 s f).fileNodes =
          s.fileNodes ++ [FileNode.mk ("file:" ++ f.path) f.name f.path] := by
        rw [step1_fileNodes, if_pos hp,
          dictInsertFileNode_fresh (hfresh f (List.mem_cons_self ..))]
      have hfresh2 : ∀ g ∈ t, ("file:" ++ g.path) ∉ fileIds (step1 s f) := by
        intro g hg hmem
        rw [fileIds, hs2, List.map_append] at hmem
        cases List.mem_append.mp hmem with
        | inl h0 => exact hfresh g (List.mem_cons_of_mem _ hg) h0
        | inr h0 =>
          simp only [List.map_cons, List.map_nil, List.mem_singleton] at h0
          have he : g.path = f.path := string_append_inj h0
          exact hnd.1 (he ▸ List.mem_map_of_mem InputFile.path hg)
      rw [ih (step1 s f) hfresh2 hnd.2, hs2, registeredFiles_cons_pos t hp]
      simp [List.append_assoc]
    · have hp2 : processedFile f = false := by rw [Bool.eq_false_iff]; exact hp
      rw [step1_not_processed s hp2]
      rw [ih s (fun g hg => hfresh g (List.mem_cons_of_mem _ hg)) hnd.2,
        registeredFiles_cons_neg t hp2]

theorem foldl_step1_entity_global_count (files : List InputFile) (s : KG) (k : String) :
    counterCount (files.foldl step1 s).entity_global_counts k =
      counterCount s.entity_global_counts k +
        ((registeredFiles files).map fun f => (find_entities f.text).count k).sum := by
  induction files generalizing s with
  | nil => simp [registeredFiles]
  | cons f t ih =>
    rw [List.foldl_cons, ih]
    by_cases hp : processedFile f = true
    · rw [step1_entity_global, if_pos hp,
        counterCount_merge _ _ _ (counterKeys_nodup_ofList _), counterCount_ofList,
        registeredFiles_cons_pos t hp]
      simp
      omega
    · have hp2 : processedFile f = false := by rw [Bool.eq_false_iff]; exact hp
      rw [step1_entity_global, if_neg hp, registeredFiles_cons_neg t hp2]

theorem foldl_step1_topic_global_count (files : List InputFile) (s : KG) (k : String) :
    counterCount (files.foldl step1 s).topic_global_counts k =
      counterCount s.topic_global_counts k +
        ((registeredFiles files).map fun f => (find_topics f.text).count k).sum := by
  induction files generalizing s with
  | nil => simp [registeredFiles]
  | cons f t ih =>
    rw [List.foldl_cons, ih]
    by_cases hp : processedFile f = true
    · rw [step1_topic_global, if_pos hp,
        counterCount_merge _ _ _ (counterKeys_nodup_ofList _), counterCount_ofList,
        registeredFiles_cons_pos t hp]
      simp
      omega
    · have hp2 : processedFile f = false := by rw [Bool.eq_false_iff]; exact hp
      rw [step1_topic_global, if_neg hp, registeredFiles_cons_neg t hp2]

theorem foldl_step1_entity_global_nodup (files : List InputFile) (s : KG)
    (h : (counterKeys s.entity_global_counts).Nodup) :
    (counterKeys (files.foldl step1 s).entity_global_counts).Nodup := by
  induction files generalizing s with
  | nil => exact h
  | cons f t ih =>
    rw [List.foldl_cons]
    refine ih (step1 s f) ?_
    rw [step1_entity_global]
    by_cases hp : processedFile f = true
    · rw [if_pos hp]
      exact counterKeys_nodup_merge _ h
    · rw [if_neg hp]
      exact h

theorem foldl_step1_topic_global_nodup (files : List InputFile) (s : KG)
    (h : (counterKeys s.topic_global_counts).Nodup) :
    (counterKeys (files.foldl step1 s).topic_global_counts).Nodup := by
  induction files generalizing s with
  | nil => exact h
  | cons f t ih =>
    rw [List.foldl_cons]
    refine ih (step1 s f) ?_
    rw [step1_topic_global]
    by_cases hp : processedFile f = true
    · rw [if_pos hp]
      exact counterKeys_nodup_merge _ h
    · rw [if_neg hp]
      exact h

theorem foldl_step1_entityIds (files : List InputFile) (s : KG) :
    ∀ x, x ∈ entityIds (files.foldl step1 s) ↔
      x ∈ entityIds s ∨
        ∃ f ∈ registeredFiles files, ∃ e ∈ find_entities f.text, x = "entity:" ++ e := by
  induction files generalizing s with
  | nil => intro x; simp [registeredFiles]
  | cons f t ih =>
    intro x
    rw [List.foldl_cons, ih, step1_entityIds]
    by_cases hp : processedFile f = true
    · rw [registeredFiles_cons_pos t hp]
      constructor
      · intro h
        rcases h with (h1 | ⟨_, e, he, hx⟩) | ⟨g, hg, e, he, hx⟩
        · exact Or.inl h1
        · exact Or.inr ⟨f, List.mem_cons_self .., e, he, hx⟩
        · exact Or.inr ⟨g, List.mem_cons_of_mem _ hg, e, he, hx⟩
      · intro h
        rcases h with h1 | ⟨g, hg, e, he, hx⟩
        · exact Or.inl (Or.inl h1)
        · rcases List.mem_cons.mp hg with hg1 | hg2
          · subst hg1; exact Or.inl (Or.inr ⟨hp, e, he, hx⟩)
          · exact Or.inr ⟨g, hg2, e, he, hx⟩
    · have hp2 : processedFile f = false := by rw [Bool.eq_false_iff]; exact hp
      rw [registeredFiles_cons_neg t hp2]
      constructor
      · intro h
        rcases h with (h1 | ⟨hpp, _⟩) | h2
        · exact Or.inl h1
        · exact absurd hpp hp
        · exact Or.inr h2
      · intro h
        rcases h with h1 | h2
        · exact Or.inl (Or.inl h1)
        · exact Or.inr h2

theorem foldl_step1_topicIds (files : List InputFile) (s : KG) :
    ∀ x, x ∈ topicIds (files.foldl step1 s) ↔
      x ∈ topicIds s ∨
        ∃ f ∈ registeredFiles files, ∃ e ∈ find_topics f.text, x = "topic:" ++ e := by
  induction files generalizing s with
  | nil => intro x; simp [registeredFiles]
  | cons f t ih =>
    intro x
    rw [List.foldl_cons, ih, step1_topicIds]
    by_cases hp : processedFile f = true
    · rw [registeredFiles_cons_pos t hp]
      constructor
      · intro h
        rcases h with (h1 | ⟨_, e, he, hx⟩) | ⟨g, hg, e, he, hx⟩
        · exact Or.inl h1
        · exact Or.inr ⟨f, List.mem_cons_self .., e, he, hx⟩
        · exact Or.inr ⟨g, List.mem_cons_of_mem _ hg, e, he, hx⟩
      · intro h
        rcases h with h1 | ⟨g, hg, e, he, hx⟩
        · exact Or.inl (Or.inl h1)
        · rcases List.mem_cons.mp hg with hg1 | hg2
          · subst hg1; exact Or.inl (Or.inr ⟨hp, e, he, hx⟩)
          · exact Or.inr ⟨g, hg2, e, he, hx⟩
    · have hp2 : processedFile f = false := by rw [Bool.eq_false_iff]; exact hp
      rw [registeredFiles_cons_neg t hp2]
      constructor
      · intro h
        rcases h with (h1 | ⟨hpp, _⟩) | h2
        · exact Or.inl h1
        · exact absurd hpp hp
        · exact Or.inr h2
      · intro h
        rcases h with h1 | h2
        · exact Or.inl (Or.inl h1)
        · exact Or.inr h2

theorem foldl_step1_fileIds (files : List InputFile) (s : KG) :
    ∀ x, x ∈ fileIds (files.foldl step1 s) ↔
      x ∈ fileIds s ∨ ∃ f ∈ registeredFiles files, x = "file:" ++ f.path := by
  induction files generalizing s with
  | nil => intro x; simp [registeredFiles]
  | cons f t ih =>
    intro x
    rw [List.foldl_cons, ih, step1_fileIds]
    by_cases hp : processedFile f = true
    · rw [registeredFiles_cons_pos t hp]
      constructor
      · intro h
        rcases h with (h1 | ⟨_, hx⟩) | ⟨g, hg, hx⟩
        · exact Or.inl h1
        · exact Or.inr ⟨f, List.mem_cons_self .., hx⟩
        · exact Or.inr ⟨g, List.mem_cons_of_mem _ hg, hx⟩
      · intro h
        rcases h with h1 | ⟨g, hg, hx⟩
        · exact Or.inl (Or.inl h1)
        · rcases List.mem_cons.mp hg with hg1 | hg2
          · subst hg1; exact Or.inl (Or.inr ⟨hp, hx⟩)
          · exact Or.inr ⟨g, hg2, hx⟩
    · have hp2 : processedFile f = false := by rw [Bool.eq_false_iff]; exact hp
      rw [registeredFiles_cons_neg t hp2]
      constructor
      · intro h
        rcases h with (h1 | ⟨hpp, _⟩) | h2
        · exact Or.inl h1
        · exact absurd hpp hp
        · exact Or.inr h2
      · intro h
        rcases h with h1 | h2
        · exact Or.inl (Or.inl h1)
        · exact Or.inr h2

theorem foldl_step2_edges (l : List (String × List Char)) (s : KG) :
    (l.foldl step2 s).edges = s.edges ++ l.flatMap cooccurBlock := by
  induction l generalizing s with
  | nil => simp
  | cons ft t ih =>
    rw [List.foldl_cons, ih]
    have h1 : (step2 s ft).edges = s.edges ++ cooccurBlock ft := rfl
    rw [h1]
    simp [List.append_assoc]

theorem foldl_step2_fileNodes (l : List (String × List Char)) (s : KG) :
    (l.foldl step2 s).fileNodes = s.fileNodes := by
  induction l generalizing s with
  | nil => rfl
  | cons ft t ih => rw [List.foldl_cons, ih]; rfl

theorem foldl_step2_entityNodes (l : List (String × List Char)) (s : KG) :
    (l.foldl step2 s).entityNodes = s.entityNodes := by
  induction l generalizing s with
  | nil => rfl
  | cons ft t ih => rw [List.foldl_cons, ih]; rfl

theorem foldl_step2_topicNodes (l : List (String × List Char)) (s : KG) :
    (l.foldl step2 s).topicNodes = s.topicNodes := by
  induction l generalizing s with
  | nil => rfl
  | cons ft t ih => rw [List.foldl_cons, ih]; rfl

theorem foldl_step2_file_texts (l : List (String × List Char)) (s : KG) :
    (l.foldl step2 s).file_texts = s.file_texts := by
  induction l generalizing s with
  | nil => rfl
  | cons ft t ih => rw [List.foldl_cons, ih]; rfl

theorem foldl_step2_entity_global (l : List (String × List Char)) (s : KG) :
    (l.foldl step2 s).entity_global_counts = s.entity_global_counts := by
  induction l generalizing s with
  | nil => rfl
  | cons ft t ih => rw [List.foldl_cons, ih]; rfl

theorem foldl_step2_topic_global (l : List (String × List Char)) (s : KG) :
    (l.foldl step2 s).topic_global_counts = s.topic_global_counts := by
  induction l generalizing s with
  | nil => rfl
  | cons ft t ih => rw [List.foldl_cons, ih]; rfl

theorem build_kg_edges (files : List InputFile) :
    (build_kg files).edges =
      (runPass1 files).edges ++ (runPass1 files).file_texts.flatMap cooccurBlock :=
  foldl_step2_edges _ _

theorem build_kg_fileNodes (files : List InputFile) :
    (build_kg files).fileNodes = (runPass1 files).fileNodes :=
  foldl_step2_fileNodes _ _

theorem build_kg_entityNodes (files : List InputFile) :
    (build_kg files).entityNodes = (runPass1 files).entityNodes :=
  foldl_step2_entityNodes _ _

theorem build_kg_topicNodes (files : List InputFile) :
    (build_kg files).topicNodes = (runPass1 files).topicNodes :=
  foldl_step2_topicNodes _ _

theorem build_kg_file_texts (files : List InputFile) :
    (build_kg files).file_texts = (runPass1 files).file_texts :=
  foldl_step2_file_texts _ _

theorem build_kg_entity_global (files : List InputFile) :
    (build_kg files).entity_global_counts = (runPass1 files).entity_global_counts :=
  foldl_step2_entity_global _ _

theorem build_kg_topic_global (files : List InputFile) :
    (build_kg files).topic_global_counts = (runPass1 files).topic_global_counts :=
  foldl_step2_topic_global _ _

theorem runPass1_edges (files : List InputFile) :
    (runPass1 files).edges = (registeredFiles files).flatMap fileBlock := by
  rw [runPass1, foldl_step1_edges]
  rfl

theorem runPass1_file_texts {files : List InputFile} (hnd : pathsNodup files) :
    (runPass1 files).file_texts =
      (registeredFiles files).map fun f => ("file:" ++ f.path, f.text) := by
  rw [runPass1, foldl_step1_file_texts files emptyKG (by intro g hg h; simp [textKeys, emptyKG] at h) hnd]
  rfl

theorem runPass1_fileNodes {files : List InputFile} (hnd : pathsNodup files) :
    (runPass1 files).fileNodes =
      (registeredFiles files).map fun f => FileNode.mk ("file:" ++ f.path) f.name f.path := by
  rw [runPass1, foldl_step1_fileNodes files emptyKG (by intro g hg h; simp [fileIds, emptyKG] at h) hnd]
  rfl

theorem mem_listPairs {α : Type} {l : List α} {p : α × α} (h : p ∈ listPairs l) :
    p.1 ∈ l ∧ p.2 ∈ l := by
  induction l with
  | nil => simp [listPairs] at h
  | cons x xs ih =>
    rw [listPairs, List.mem_append] at h
    cases h with
    | inl h0 =>
      rw [List.mem_map] at h0
      obtain ⟨y, hy, he⟩ := h0
      rw [← he]
      exact ⟨List.mem_cons_self .., List.mem_cons_of_mem _ hy⟩
    | inr h0 =>
      have := ih h0
      exact ⟨List.mem_cons_of_mem _ this.1, List.mem_cons_of_mem _ this.2⟩

theorem mem_listProd {α β : Type} {l1 : List α} {l2 : List β} {p : α × β}
    (h : p ∈ listProd l1 l2) : p.1 ∈ l1 ∧ p.2 ∈ l2 := by
  induction l1 with
  | nil => simp [listProd] at h
  | cons x xs ih =>
    rw [listProd, List.mem_append] at h
    cases h with
    | inl h0 =>
      rw [List.mem_map] at h0
      obtain ⟨y, hy, he⟩ := h0
      rw [← he]
      exact ⟨List.mem_cons_self .., hy⟩
    | inr h0 =>
      have := ih h0
      exact ⟨List.mem_cons_of_mem _ this.1, this.2⟩

theorem mem_cooccurEdges {fid : String} {es ts : List String} {e : Edge}
    (h : e ∈ cooccurEdges fid es ts) :
    (∃ a b, e = Edge.entityRelatedToEntity ("entity:" ++ a) ("entity:" ++ b) fid ∧
      a ∈ es ∧ b ∈ es) ∨
    (∃ a b, e = Edge.entityRelatedToTopic ("entity:" ++ a) ("topic:" ++ b) fid ∧
      a ∈ es ∧ b ∈ ts) := by
  rw [cooccurEdges, List.mem_append] at h
  cases h with
  | inl h0 =>
    rw [List.mem_map] at h0
    obtain ⟨p, hp, he⟩ := h0
    have hm := mem_listPairs hp
    exact Or.inl ⟨p.1, p.2, he.symm, hm.1, hm.2⟩
  | inr h0 =>
    rw [List.mem_map] at h0
    obtain ⟨p, hp, he⟩ := h0
    have hm := mem_listProd hp
    exact Or.inr ⟨p.1, p.2, he.symm, hm.1, hm.2⟩

theorem mem_fileBlock {f : InputFile} {e : Edge} (h : e ∈ fileBlock f) :
    (∃ a w, e = Edge.fileContainsEntity ("file:" ++ f.path) ("entity:" ++ a) w ∧
      a ∈ find_entities f.text) ∨
    (∃ a w, e = Edge.fileContainsTopic ("file:" ++ f.path) ("topic:" ++ a) w ∧
      a ∈ find_topics f.text) := by
  rw [fileBlock, List.mem_append] at h
  cases h with
  | inl h0 =>
    rw [entityEdgesOf, List.mem_map] at h0
    obtain ⟨p, hp, he⟩ := h0
    exact Or.inl ⟨p.1, p.2, he.symm, mem_of_mem_counterOfList hp⟩
  | inr h0 =>
    rw [topicEdgesOf, List.mem_map] at h0
    obtain ⟨p, hp, he⟩ := h0
    exact Or.inr ⟨p.1, p.2, he.symm, mem_of_mem_counterOfList hp⟩

theorem nodup_paths_inj {files : List InputFile} (hnd : pathsNodup files)
    {f g : InputFile} (hf : f ∈ files) (hg : g ∈ files) (he : f.path = g.path) : f = g :=
  List.inj_on_of_nodup_map hnd hf hg he

/-- C10: every visualization line is the character-for-character splice of the
node's id and display name (or the edge's endpoint ids and type tag) into the
fixed quoted template, with no escaping: the quote characters of a line are
exactly the template's own plus whatever quotes the spliced fields carry. -/
theorem claim_C10 :
    (∀ n : FileNode,
      gvFileLine n = "  \"" ++ n.id ++ "\" [label=\"" ++ n.name ++ "\" shape=box];" ∧
      (gvFileLine n).data.count '"' = 4 + n.id.data.count '"' + n.name.data.count '"') ∧
    (∀ n : TermNode,
      gvEntityLine n = "  \"" ++ n.id ++ "\" [label=\"" ++ n.name ++ "\" shape=ellipse];" ∧
      (gvEntityLine n).data.count '"' = 4 + n.id.data.count '"' + n.name.data.count '"') ∧
    (∀ n : TermNode,
      gvTopicLine n = "  \"" ++ n.id ++ "\" [label=\"" ++ n.name ++ "\" shape=diamond];" ∧
      (gvTopicLine n).data.count '"' = 4 + n.id.data.count '"' + n.name.data.count '"') ∧
    (∀ e : Edge,
      gvEdgeLine e =
        "  \"" ++ e.srcId ++ "\" -- \"" ++ e.dstId ++ "\" [label=\"" ++ e.typeTag ++ "\"];" ∧
      (gvEdgeLine e).data.count '"' =
        6 + e.srcId.data.count '"' + e.dstId.data.count '"' + e.typeTag.data.count '"') := by
  refine ⟨?_, ?_, ?_, ?_⟩
  · intro n
    refine ⟨rfl, ?_⟩
    simp only [gvFileLine, String.data_append, List.count_append]
    have h1 : ("  \"".data).count '"' = 1 := by decide
    have h2 : ("\" [label=\"".data).count '"' = 2 := by decide
    have h3 : ("\" shape=box];".data).count '"' = 1 := by decide
    rw [h1, h2, h3]
    omega
  · intro n
    refine ⟨rfl, ?_⟩
    simp only [gvEntityLine, String.data_append, List.count_append]
    have h1 : ("  \"".data).count '"' = 1 := by decide
    have h2 : ("\" [label=\"".data).count '"' = 2 := by decide
    have h3 : ("\" shape=ellipse];".data).count '"' = 1 := by decide
    rw [h1, h2, h3]
    omega
  · intro n
    refine ⟨rfl, ?_⟩
    simp only [gvTopicLine, String.data_append, List.count_append]
    have h1 : ("  \"".data).count '"' = 1 := by decide
    have h2 : ("\" [label=\"".data).count '"' = 2 := by decide
    have h3 : ("\" shape=diamond];".data).count '"' = 1 := by decide
    rw [h1, h2, h3]
    omega
  · intro e
    refine ⟨rfl, ?_⟩
    simp only [gvEdgeLine, String.data_append, List.count_append]
    have h1 : ("  \"".data).count '"' = 1 := by decide
    have h2 : ("\" -- \"".data).count '"' = 2 := by decide
    have h3 : ("\" [label=\"".data).count '"' = 2 := by decide
    have h4 : ("\"];".data).count '"' = 1 := by decide
    rw [h1, h2, h3, h4]
    omega

/-- C4 is false on the code: a walked zero-byte `.txt` (empty extracted text)
produces no file node at all (and no edges), not a file node with zero
outgoing edges: the run on that single file has an empty node collection. -/
theorem claim_C4_counterexample :
    (build_kg [⟨"./source/empty.txt", "empty.txt", []⟩]).fileNodes = [] ∧
    (build_kg [⟨"./source/empty.txt", "empty.txt", []⟩]).edges = [] := by
  constructor
  · rfl
  · rfl

/-- C4 (amended): a walked file whose extraction yields empty (or
whitespace-only) text is skipped entirely: the run contains no file node for
it and no edge mentioning its id as an endpoint or file tag. -/
theorem claim_C4_amended (files : List InputFile) (f : InputFile)
    (hnd : pathsNodup files) (hf : f ∈ files) (hp : processedFile f = false) :
    ("file:" ++ f.path) ∉ fileIds (build_kg files) ∧
    ∀ e ∈ (build_kg files).edges, edgeMentions ("file:" ++ f.path) e = false := by
  have hgne : ∀ g ∈ registeredFiles files, "file:" ++ g.path ≠ "file:" ++ f.path := by
    intro g hg he
    rw [registeredFiles, List.mem_filter] at hg
    have hgf : g = f := nodup_paths_inj hnd hg.1 hf (string_append_inj he)
    rw [hgf] at hg
    rw [hg.2] at hp
    simp at hp
  constructor
  · intro hmem
    rw [show fileIds (build_kg files) = fileIds (runPass1 files) from by
      simp only [fileIds, build_kg_fileNodes]] at hmem
    rw [runPass1, foldl_step1_fileIds] at hmem
    cases hmem with
    | inl h0 => simp [fileIds, emptyKG] at h0
    | inr h0 =>
      obtain ⟨g, hg, he⟩ := h0
      have hgm : g ∈ files := (List.mem_filter.mp hg).1
      have hgf : g = f := nodup_paths_inj hnd hgm hf (string_append_inj he.symm)
      rw [hgf] at hg
      rw [(List.mem_filter.mp hg).2] at hp
      simp at hp
  · intro e he
    rw [build_kg_edges, List.mem_append] at he
    cases he with
    | inl h1 =>
      rw [runPass1_edges, List.mem_flatMap] at h1
      obtain ⟨g, hg, hge⟩ := h1
      cases mem_fileBlock hge with
      | inl h2 =>
        obtain ⟨a, w, hew, _⟩ := h2
        subst hew
        simp only [edgeMentions, Edge.srcId, Edge.dstId]
        have e1 : ("file:" ++ g.path == "file:" ++ f.path) = false := by
          rw [beq_eq_false_iff_ne]
          exact hgne g hg
        have e2 : ("entity:" ++ a == "file:" ++ f.path) = false := by
          rw [beq_eq_false_iff_ne]
          exact fun hx => file_ne_entity f.path a hx.symm
        rw [e1, e2]
        rfl
      | inr h2 =>
        obtain ⟨a, w, hew, _⟩ := h2
        subst hew
        simp only [edgeMentions, Edge.srcId, Edge.dstId]
        have e1 : ("file:" ++ g.path == "file:" ++ f.path) = false := by
          rw [beq_eq_false_iff_ne]
          exact hgne g hg
        have e2 : ("topic:" ++ a == "file:" ++ f.path) = false := by
          rw [beq_eq_false_iff_ne]
          exact fun hx => file_ne_topic f.path a hx.symm
        rw [e1, e2]
        rfl
    | inr h1 =>
      rw [runPass1_file_texts hnd, List.flatMap_map, List.mem_flatMap] at h1
      obtain ⟨g, hg, hge⟩ := h1
      have hco := mem_cooccurEdges (show e ∈ cooccurEdges ("file:" ++ g.path) _ _ from hge)
      cases hco with
      | inl h2 =>
        obtain ⟨a, b, hew, _, _⟩ := h2
        subst hew
        simp only [edgeMentions, Edge.srcId, Edge.dstId]
        have e1 : ("entity:" ++ a == "file:" ++ f.path) = false := by
          rw [beq_eq_false_iff_ne]
          exact fun hx => file_ne_entity f.path a hx.symm
        have e2 : ("entity:" ++ b == "file:" ++ f.path) = false := by
          rw [beq_eq_false_iff_ne]
          exact fun hx => file_ne_entity f.path b hx.symm
        have e3 : ("file:" ++ g.path == "file:" ++ f.path) = false := by
          rw [beq_eq_false_iff_ne]
          exact hgne g hg
        rw [e1, e2]
        simp [e3]
      | inr h2 =>
        obtain ⟨a, b, hew, _, _⟩ := h2
        subst hew
        simp only [edgeMentions, Edge.srcId, Edge.dstId]
        have e1 : ("entity:" ++ a == "file:" ++ f.path) = false := by
          rw [beq_eq_false_iff_ne]
          exact fun hx => file_ne_entity f.path a hx.symm
        have e2 : ("topic:" ++ b == "file:" ++ f.path) = false := by
          rw [beq_eq_false_iff_ne]
          exact fun hx => file_ne_topic f.path b hx.symm
        have e3 : ("file:" ++ g.path == "file:" ++ f.path) = false := by
          rw [beq_eq_false_iff_ne]
          exact hgne g hg
        rw [e1, e2]
        simp [e3]

theorem claim_C4_amended_witness :
    pathsNodup [⟨"./source/empty.txt", "empty.txt", []⟩] ∧
    (⟨"./source/empty.txt", "empty.txt", []⟩ : InputFile) ∈
      [(⟨"./source/empty.txt", "empty.txt", []⟩ : InputFile)] ∧
    processedFile ⟨"./source/empty.txt", "empty.txt", []⟩ = false ∧
    (("file:" ++ InputFile.path ⟨"./source/empty.txt", "empty.txt", []⟩) ∉
        fileIds (build_kg [⟨"./source/empty.txt", "empty.txt", []⟩]) ∧
      ∀ e ∈ (build_kg [⟨"./source/empty.txt", "empty.txt", []⟩]).edges,
        edgeMentions ("file:" ++ InputFile.path ⟨"./source/empty.txt", "empty.txt", []⟩) e =
          false) :=
  ⟨by decide, by decide, by decide,
    claim_C4_amended [⟨"./source/empty.txt", "empty.txt", []⟩]
      ⟨"./source/empty.txt", "empty.txt", []⟩ (by decide) (by decide) (by decide)⟩

theorem find_topics_nodup (text : List Char) (n : Nat) : (find_topics text n).Nodup :=
  mostCommon_keys_nodup (counterKeys_nodup_ofList (topicCandidates text)) n

theorem sum_indicator (l : List InputFile) (p : InputFile → Bool) :
    (l.map fun f => if p f then 1 else 0).sum = (l.filter p).length := by
  induction l with
  | nil => rfl
  | cons f t ih =>
    rw [List.map_cons, List.sum_cons, ih, List.filter_cons]
    by_cases hp : p f = true
    · rw [if_pos hp, if_pos hp]
      simp
      omega
    · rw [if_neg hp, if_neg hp]
      simp

theorem mem_topicEdgesOf {fid : String} {c : Counter} {e : Edge}
    (h : e ∈ topicEdgesOf fid c) :
    ∃ p ∈ c, e = Edge.fileContainsTopic fid ("topic:" ++ p.1) p.2 := by
  rw [topicEdgesOf, List.mem_map] at h
  obtain ⟨p, hp, he⟩ := h
  exact ⟨p, hp, he.symm⟩

theorem mem_entityEdgesOf {fid : String} {c : Counter} {e : Edge}
    (h : e ∈ entityEdgesOf fid c) :
    ∃ p ∈ c, e = Edge.fileContainsEntity fid ("entity:" ++ p.1) p.2 := by
  rw [entityEdgesOf, List.mem_map] at h
  obtain ⟨p, hp, he⟩ := h
  exact ⟨p, hp, he.symm⟩

/-- C9: every FILE_CONTAINS_TOPIC edge of a run has weight exactly 1 (the
per-file topic counter is built from the deduplicated at-most-N list that
`find_topics` returns), so each registered file contributes at most 1 to a
topic's global counter, which therefore equals the number of registered files
listing that topic rather than its total occurrence count. -/
theorem claim_C9 (files : List InputFile) (hnd : pathsNodup files) :
    (∀ e ∈ (build_kg files).edges, ∀ a b w, e = Edge.fileContainsTopic a b w → w = 1) ∧
    ∀ name : String,
      counterCount (build_kg files).topic_global_counts name =
        ((registeredFiles files).filter fun f => (find_topics f.text).contains name).length := by
  constructor
  · intro e he a b w hew
    subst hew
    rw [build_kg_edges, List.mem_append] at he
    cases he with
    | inl h1 =>
      rw [runPass1_edges, List.mem_flatMap] at h1
      obtain ⟨g, _, hge⟩ := h1
      rw [fileBlock, List.mem_append] at hge
      cases hge with
      | inl h2 =>
        obtain ⟨p, _, hpe⟩ := mem_entityEdgesOf h2
        simp at hpe
      | inr h2 =>
        obtain ⟨p, hp, hpe⟩ := mem_topicEdgesOf h2
        have hw : w = p.2 := by
          injection hpe with h3 h4 h5
        rw [hw, pair_snd_eq_count hp]
        exact List.count_eq_one_of_mem (find_topics_nodup g.text 10)
          (mem_of_mem_counterOfList hp)
    | inr h1 =>
      rw [runPass1_file_texts hnd, List.flatMap_map, List.mem_flatMap] at h1
      obtain ⟨g, _, hge⟩ := h1
      cases mem_cooccurEdges
          (show Edge.fileContainsTopic a b w ∈ cooccurEdges ("file:" ++ g.path) _ _ from hge) with
      | inl h2 =>
        obtain ⟨_, _, hpe, _⟩ := h2
        simp at hpe
      | inr h2 =>
        obtain ⟨_, _, hpe, _⟩ := h2
        simp at hpe
  · intro name
    rw [build_kg_topic_global, runPass1, foldl_step1_topic_global_count]
    have h0 : counterCount emptyKG.topic_global_counts name = 0 := rfl
    rw [h0]
    have hcong : ((registeredFiles files).map fun f => (find_topics f.text).count name) =
        (registeredFiles files).map fun f =>
          if (find_topics f.text).contains name then 1 else 0 := by
      apply List.map_congr_left
      intro f _
      by_cases hm : name ∈ find_topics f.text
      · rw [List.count_eq_one_of_mem (find_topics_nodup f.text 10) hm,
          if_pos ((contains_iff _ _).mpr hm)]
      · rw [List.count_eq_zero.mpr hm,
          if_neg fun hb => hm ((contains_iff _ _).mp hb)]
    rw [hcong, sum_indicator]
    omega

theorem claim_C9_witness :
    pathsNodup [fileA, fileB] ∧
    ((∀ e ∈ (build_kg [fileA, fileB]).edges, ∀ a b w,
        e = Edge.fileContainsTopic a b w → w = 1) ∧
      ∀ name : String,
        counterCount (build_kg [fileA, fileB]).topic_global_counts name =
          ((registeredFiles [fileA, fileB]).filter fun f =>
            (find_topics f.text).contains name).length) :=
  ⟨by decide, claim_C9 [fileA, fileB] (by decide)⟩

theorem filter_flatMap_nil (blk : InputFile → List Edge) {l : List InputFile}
    {P : Edge → Bool} (h : ∀ g ∈ l, (blk g).filter P = []) :
    (l.flatMap blk).filter P = [] := by
  induction l with
  | nil => rfl
  | cons g t ih =>
    rw [List.flatMap_cons, List.filter_append, h g (List.mem_cons_self ..),
      ih fun g2 hg2 => h g2 (List.mem_cons_of_mem _ hg2)]
    rfl

theorem filter_flatMap_single (blk : InputFile → List Edge) {l : List InputFile}
    {f : InputFile} (hf : f ∈ l) (hnodup : (l.map InputFile.path).Nodup) (P : Edge → Bool)
    (hother : ∀ g ∈ l, g.path ≠ f.path → (blk g).filter P = []) :
    (l.flatMap blk).filter P = (blk f).filter P := by
  induction l with
  | nil => cases hf
  | cons g t ih =>
    rw [List.flatMap_cons, List.filter_append]
    rw [List.map_cons, List.nodup_cons] at hnodup
    cases List.mem_cons.mp hf with
    | inl he =>
      have hnil : (t.flatMap blk).filter P = [] := by
        refine filter_flatMap_nil blk ?_
        intro g2 hg2
        refine hother g2 (List.mem_cons_of_mem _ hg2) ?_
        intro hpe
        rw [← he] at hnodup
        exact hnodup.1 (hpe ▸ List.mem_map_of_mem InputFile.path hg2)
      rw [hnil, he, List.append_nil]
    | inr hm =>
      have hgf : g.path ≠ f.path := by
        intro hpe
        exact hnodup.1 (hpe ▸ List.mem_map_of_mem InputFile.path hm)
      rw [hother g (List.mem_cons_self ..) hgf, List.nil_append]
      exact ih hm hnodup.2 fun g2 hg2 => hother g2 (List.mem_cons_of_mem _ hg2)

theorem filter_entityEdgesOf_key {fid t : String} {c : Counter}
    (hn : (counterKeys c).Nodup) (hmem : ∃ v, (t, v) ∈ c) :
    (entityEdgesOf fid c).filter (isEntityContainment fid ("entity:" ++ t)) =
      [Edge.fileContainsEntity fid ("entity:" ++ t) (counterCount c t)] := by
  induction c with
  | nil => obtain ⟨v, hv⟩ := hmem; cases hv
  | cons p c2 ih =>
    have hck : counterKeys (p :: c2) = p.1 :: counterKeys c2 := rfl
    rw [hck, List.nodup_cons] at hn
    rw [entityEdgesOf, List.map_cons]
    rw [List.filter_cons]
    by_cases hp : p.1 = t
    · have hb : isEntityContainment fid ("entity:" ++ t)
          (Edge.fileContainsEntity fid ("entity:" ++ p.1) p.2) = true := by
        simp [isEntityContainment, hp]
      rw [if_pos hb]
      have hnil : (entityEdgesOf fid c2).filter
          (isEntityContainment fid ("entity:" ++ t)) = [] := by
        rw [List.filter_eq_nil_iff]
        intro e he hpe
        obtain ⟨q, hq, hqe⟩ := mem_entityEdgesOf he
        subst hqe
        simp only [isEntityContainment, Bool.and_eq_true, beq_iff_eq] at hpe
        have : q.1 = t := string_append_inj hpe.2
        exact hn.1 (hp ▸ this ▸ List.mem_map_of_mem _ hq)
      have hcnt : counterCount (p :: c2) t = p.2 := by
        simp [counterCount, hp]
      rw [hcnt]
      rw [show entityEdgesOf fid c2 = List.map
        (fun q => Edge.fileContainsEntity fid ("entity:" ++ q.1) q.2) c2 from rfl] at hnil
      rw [hnil, hp]
    · have hb : isEntityContainment fid ("entity:" ++ t)
          (Edge.fileContainsEntity fid ("entity:" ++ p.1) p.2) = false := by
        simp only [isEntityContainment, Bool.and_eq_true, beq_iff_eq]
        rw [Bool.eq_false_iff]
        intro hx
        rw [Bool.and_eq_true, beq_iff_eq, beq_iff_eq] at hx
        exact hp (string_append_inj hx.2)
      rw [if_neg (by rw [hb]; exact Bool.false_ne_true)]
      have hmem2 : ∃ v, (t, v) ∈ c2 := by
        obtain ⟨v, hv⟩ := hmem
        cases List.mem_cons.mp hv with
        | inl h0 =>
          exact absurd (congrArg Prod.fst h0).symm hp
        | inr h0 => exact ⟨v, h0⟩
      have hcnt : counterCount (p :: c2) t = counterCount c2 t := by
        simp [counterCount, hp]
      rw [hcnt]
      exact ih hn.2 hmem2

theorem filter_topicEdgesOf_key {fid t : String} {c : Counter}
    (hn : (counterKeys c).Nodup) (hmem : ∃ v, (t, v) ∈ c) :
    (topicEdgesOf fid c).filter (isTopicContainment fid ("topic:" ++ t)) =
      [Edge.fileContainsTopic fid ("topic:" ++ t) (counterCount c t)] := by
  induction c with
  | nil => obtain ⟨v, hv⟩ := hmem; cases hv
  | cons p c2 ih =>
    have hck : counterKeys (p :: c2) = p.1 :: counterKeys c2 := rfl
    rw [hck, List.nodup_cons] at hn
    rw [topicEdgesOf, List.map_cons]
    rw [List.filter_cons]
    by_cases hp : p.1 = t
    · have hb : isTopicContainment fid ("topic:" ++ t)
          (Edge.fileContainsTopic fid ("topic:" ++ p.1) p.2) = true := by
        simp [isTopicContainment, hp]
      rw [if_pos hb]
      have hnil : (topicEdgesOf fid c2).filter
          (isTopicContainment fid ("topic:" ++ t)) = [] := by
        rw [List.filter_eq_nil_iff]
        intro e he hpe
        obtain ⟨q, hq, hqe⟩ := mem_topicEdgesOf he
        subst hqe
        simp only [isTopicContainment, Bool.and_eq_true, beq_iff_eq] at hpe
        have : q.1 = t := string_append_inj hpe.2
        exact hn.1 (hp ▸ this ▸ List.mem_map_of_mem _ hq)
      have hcnt : counterCount (p :: c2) t = p.2 := by
        simp [counterCount, hp]
      rw [hcnt]
      rw [show topicEdgesOf fid c2 = List.map
        (fun q => Edge.fileContainsTopic fid ("topic:" ++ q.1) q.2) c2 from rfl] at hnil
      rw [hnil, hp]
    · have hb : isTopicContainment fid ("topic:" ++ t)
          (Edge.fileContainsTopic fid ("topic:" ++ p.1) p.2) = false := by
        rw [Bool.eq_false_iff]
        intro hx
        simp only [isTopicContainment, Bool.and_eq_true, beq_iff_eq] at hx
        exact hp (string_append_inj hx.2)
      rw [if_neg (by rw [hb]; exact Bool.false_ne_true)]
      have hmem2 : ∃ v, (t, v) ∈ c2 := by
        obtain ⟨v, hv⟩ := hmem
        cases List.mem_cons.mp hv with
        | inl h0 =>
          exact absurd (congrArg Prod.fst h0).symm hp
        | inr h0 => exact ⟨v, h0⟩
      have hcnt : counterCount (p :: c2) t = counterCount c2 t := by
        simp [counterCount, hp]
      rw [hcnt]
      exact ih hn.2 hmem2

theorem filter_entityEdgesOf_ne {fid fid2 tid : String} (c : Counter) (h : fid2 ≠ fid) :
    (entityEdgesOf fid2 c).filter (isEntityContainment fid tid) = [] := by
  rw [List.filter_eq_nil_iff]
  intro e he hpe
  obtain ⟨q, _, hqe⟩ := mem_entityEdgesOf he
  subst hqe
  simp only [isEntityContainment, Bool.and_eq_true, beq_iff_eq] at hpe
  exact h hpe.1

theorem filter_topicEdgesOf_entityPred (fid2 fid tid : String) (c : Counter) :
    (topicEdgesOf fid2 c).filter (isEntityContainment fid tid) = [] := by
  rw [List.filter_eq_nil_iff]
  intro e he hpe
  obtain ⟨q, _, hqe⟩ := mem_topicEdgesOf he
  subst hqe
  simp [isEntityContainment] at hpe

theorem filter_entityEdgesOf_topicPred (fid2 fid tid : String) (c : Counter) :
    (entityEdgesOf fid2 c).filter (isTopicContainment fid tid) = [] := by
  rw [List.filter_eq_nil_iff]
  intro e he hpe
  obtain ⟨q, _, hqe⟩ := mem_entityEdgesOf he
  subst hqe
  simp [isTopicContainment] at hpe

theorem filter_topicEdgesOf_ne {fid fid2 tid : String} (c : Counter) (h : fid2 ≠ fid) :
    (topicEdgesOf fid2 c).filter (isTopicContainment fid tid) = [] := by
  rw [List.filter_eq_nil_iff]
  intro e he hpe
  obtain ⟨q, _, hqe⟩ := mem_topicEdgesOf he
  subst hqe
  simp only [isTopicContainment, Bool.and_eq_true, beq_iff_eq] at hpe
  exact h hpe.1

theorem filter_cooccur_entityPred (ft : String × List Char) (fid tid : String) :
    (cooccurBlock ft).filter (isEntityContainment fid tid) = [] := by
  rw [List.filter_eq_nil_iff]
  intro e he hpe
  cases mem_cooccurEdges (show e ∈ cooccurEdges ft.1 _ _ from he) with
  | inl h2 =>
    obtain ⟨a, b, hew, _, _⟩ := h2
    subst hew
    simp [isEntityContainment] at hpe
  | inr h2 =>
    obtain ⟨a, b, hew, _, _⟩ := h2
    subst hew
    simp [isEntityContainment] at hpe

theorem filter_cooccur_topicPred (ft : String × List Char) (fid tid : String) :
    (cooccurBlock ft).filter (isTopicContainment fid tid) = [] := by
  rw [List.filter_eq_nil_iff]
  intro e he hpe
  cases mem_cooccurEdges (show e ∈ cooccurEdges ft.1 _ _ from he) with
  | inl h2 =>
    obtain ⟨a, b, hew, _, _⟩ := h2
    subst hew
    simp [isTopicContainment] at hpe
  | inr h2 =>
    obtain ⟨a, b, hew, _, _⟩ := h2
    subst hew
    simp [isTopicContainment] at hpe

theorem registered_map_paths_nodup {files : List InputFile} (hnd : pathsNodup files) :
    ((registeredFiles files).map InputFile.path).Nodup :=
  List.Nodup.sublist (List.Sublist.map InputFile.path (List.filter_sublist files)) hnd

/-- C1: for every registered file and every distinct term its extraction
yields, the run contains exactly one containment edge from the file's node to
the term's node, whose weight (hence the sum of the weights of that
file/term's containment edges) equals the term's occurrence count in that
file's extraction result. -/
theorem claim_C1 (files : List InputFile) (f : InputFile)
    (hnd : pathsNodup files) (hf : f ∈ files) (hp : processedFile f = true) :
    (∀ t ∈ find_entities f.text,
      (build_kg files).edges.filter
          (isEntityContainment ("file:" ++ f.path) ("entity:" ++ t)) =
        [Edge.fileContainsEntity ("file:" ++ f.path) ("entity:" ++ t)
          ((find_entities f.text).count t)] ∧
      sumWeights ((build_kg files).edges.filter
          (isEntityContainment ("file:" ++ f.path) ("entity:" ++ t))) =
        (find_entities f.text).count t) ∧
    ∀ t ∈ find_topics f.text,
      (build_kg files).edges.filter
          (isTopicContainment ("file:" ++ f.path) ("topic:" ++ t)) =
        [Edge.fileContainsTopic ("file:" ++ f.path) ("topic:" ++ t)
          ((find_topics f.text).count t)] ∧
      sumWeights ((build_kg files).edges.filter
          (isTopicContainment ("file:" ++ f.path) ("topic:" ++ t))) =
        (find_topics f.text).count t := by
  have hreg : f ∈ registeredFiles files := List.mem_filter.mpr ⟨hf, hp⟩
  have hrnd := registered_map_paths_nodup hnd
  constructor
  · intro t ht
    have heq : (build_kg files).edges.filter
        (isEntityContainment ("file:" ++ f.path) ("entity:" ++ t)) =
        [Edge.fileContainsEntity ("file:" ++ f.path) ("entity:" ++ t)
          ((find_entities f.text).count t)] := by
      rw [build_kg_edges, List.filter_append, runPass1_edges,
        runPass1_file_texts hnd, List.flatMap_map]
      have h1 : ((registeredFiles files).flatMap fileBlock).filter
          (isEntityContainment ("file:" ++ f.path) ("entity:" ++ t)) =
          (fileBlock f).filter
            (isEntityContainment ("file:" ++ f.path) ("entity:" ++ t)) := by
        refine filter_flatMap_single fileBlock hreg hrnd _ ?_
        intro g _ hgf
        rw [fileBlock, List.filter_append]
        rw [filter_entityEdgesOf_ne _ fun hx => hgf (string_append_inj hx),
          filter_topicEdgesOf_entityPred]
        rfl
      have h2 : ((registeredFiles files).flatMap
            fun g => cooccurBlock ("file:" ++ g.path, g.text)).filter
          (isEntityContainment ("file:" ++ f.path) ("entity:" ++ t)) = [] := by
        refine filter_flatMap_nil _ ?_
        intro g _
        exact filter_cooccur_entityPred _ _ _
      rw [h1, h2, List.append_nil, fileBlock, List.filter_append,
        filter_topicEdgesOf_entityPred, List.append_nil]
      rw [filter_entityEdgesOf_key (counterKeys_nodup_ofList _)
        (exists_pair_counterOfList.mpr ht), counterCount_ofList]
    refine ⟨heq, ?_⟩
    rw [heq]
    simp [sumWeights, edgeWeight]
  · intro t ht
    have heq : (build_kg files).edges.filter
        (isTopicContainment ("file:" ++ f.path) ("topic:" ++ t)) =
        [Edge.fileContainsTopic ("file:" ++ f.path) ("topic:" ++ t)
          ((find_topics f.text).count t)] := by
      rw [build_kg_edges, List.filter_append, runPass1_edges,
        runPass1_file_texts hnd, List.flatMap_map]
      have h1 : ((registeredFiles files).flatMap fileBlock).filter
          (isTopicContainment ("file:" ++ f.path) ("topic:" ++ t)) =
          (fileBlock f).filter
            (isTopicContainment ("file:" ++ f.path) ("topic:" ++ t)) := by
        refine filter_flatMap_single fileBlock hreg hrnd _ ?_
        intro g _ hgf
        rw [fileBlock, List.filter_append]
        rw [filter_topicEdgesOf_ne _ fun hx => hgf (string_append_inj hx),
          filter_entityEdgesOf_topicPred]
        rfl
      have h2 : ((registeredFiles files).flatMap
            fun g => cooccurBlock ("file:" ++ g.path, g.text)).filter
          (isTopicContainment ("file:" ++ f.path) ("topic:" ++ t)) = [] := by
        refine filter_flatMap_nil _ ?_
        intro g _
        exact filter_cooccur_topicPred _ _ _
      rw [h1, h2, List.append_nil, fileBlock, List.filter_append,
        filter_entityEdgesOf_topicPred, List.nil_append]
      rw [filter_topicEdgesOf_key (counterKeys_nodup_ofList _)
        (exists_pair_counterOfList.mpr ht), counterCount_ofList]
    refine ⟨heq, ?_⟩
    rw [heq]
    simp [sumWeights, edgeWeight]

theorem claim_C1_witness :
    pathsNodup [fileA, fileB] ∧ fileA ∈ [fileA, fileB] ∧ processedFile fileA = true ∧
    "Acme Corp" ∈ find_entities fileA.text ∧
    (build_kg [fileA, fileB]).edges.filter
        (isEntityContainment ("file:" ++ fileA.path) ("entity:" ++ "Acme Corp")) =
      [Edge.fileContainsEntity ("file:" ++ fileA.path) ("entity:" ++ "Acme Corp")
        ((find_entities fileA.text).count "Acme Corp")] ∧
    sumWeights ((build_kg [fileA, fileB]).edges.filter
        (isEntityContainment ("file:" ++ fileA.path) ("entity:" ++ "Acme Corp"))) =
      (find_entities fileA.text).count "Acme Corp" :=
  ⟨by decide, by decide, by decide, by decide,
    (claim_C1 [fileA, fileB] fileA (by decide) (by decide) (by decide)).1
      "Acme Corp" (by decide)⟩

theorem pyDedupAux_nodup (seen l : List String) : (pyDedupAux seen l).Nodup := by
  induction l generalizing seen with
  | nil => exact List.nodup_nil
  | cons x t ih =>
    rw [pyDedupAux]
    by_cases hb : seen.contains x = true
    · rw [if_pos hb]
      exact ih seen
    · rw [if_neg hb]
      rw [List.nodup_cons]
      refine ⟨?_, ih (x :: seen)⟩
      intro hm
      exact (mem_pyDedupAux.mp hm).2 (List.mem_cons_self ..)

theorem pySetList_nodup (ws : List String) : (pySetList ws).Nodup := pyDedupAux_nodup [] ws

theorem listPairs_length {α : Type} (l : List α) : (listPairs l).length = l.length.choose 2 := by
  induction l with
  | nil => rfl
  | cons x xs ih =>
    rw [listPairs, List.length_append, List.length_map, ih, List.length_cons,
      Nat.choose_succ_succ, Nat.choose_one_right]

theorem listProd_length {α β : Type} (l1 : List α) (l2 : List β) :
    (listProd l1 l2).length = l1.length * l2.length := by
  induction l1 with
  | nil => simp [listProd]
  | cons x xs ih =>
    rw [listProd, List.length_append, List.length_map, ih, List.length_cons, Nat.succ_mul]
    omega

theorem count_map_pair (x : String) (xs : List String) (u v : String) :
    (xs.map fun y => (x, y)).count (u, v) = if u = x then xs.count v else 0 := by
  induction xs with
  | nil => simp
  | cons y ys ih =>
    rw [List.map_cons, List.count_cons, ih, List.count_cons]
    by_cases hu : u = x
    · rw [if_pos hu, if_pos hu]
      by_cases hv : v = y
      · have hb1 : (((x, y) : String × String) == (u, v)) = true := by
          rw [beq_iff_eq]
          exact Prod.ext hu.symm hv.symm
        have hb2 : (y == v) = true := by
          rw [beq_iff_eq]
          exact hv.symm
        simp [hb1, hb2]
      · have hb1 : (((x, y) : String × String) == (u, v)) = false := by
          rw [beq_eq_false_iff_ne]
          intro hx
          exact hv (congrArg Prod.snd hx).symm
        have hb2 : (y == v) = false := by
          rw [beq_eq_false_iff_ne]
          exact fun hy => hv hy.symm
        rw [hb1, hb2]
    · have hb1 : (((x, y) : String × String) == (u, v)) = false := by
        rw [beq_eq_false_iff_ne]
        intro hx
        exact hu (congrArg Prod.fst hx).symm
      rw [if_neg hu, if_neg hu, hb1]
      simp

theorem count_eq_zero_of_not_mem_listPairs {l : List String}
    {a b : String} (h : a ∉ l) : (listPairs l).count (a, b) = 0 := by
  rw [List.count_eq_zero]
  intro hm
  exact h (mem_listPairs hm).1

theorem count_map_edge (es : List (String × String)) (fid : String) (u v : String) :
    ((es.map fun p => Edge.entityRelatedToEntity ("entity:" ++ p.1) ("entity:" ++ p.2)
        fid).count
      (Edge.entityRelatedToEntity ("entity:" ++ u) ("entity:" ++ v) fid)) =
      es.count (u, v) := by
  induction es with
  | nil => rfl
  | cons p t ih =>
    rw [List.map_cons, List.count_cons, List.count_cons, ih]
    by_cases hpq : p = (u, v)
    · subst hpq
      simp
    · have h1 : (Edge.entityRelatedToEntity ("entity:" ++ p.1) ("entity:" ++ p.2) fid ==
          Edge.entityRelatedToEntity ("entity:" ++ u) ("entity:" ++ v) fid) = false := by
        rw [beq_eq_false_iff_ne]
        intro hx
        injection hx with a1 a2 a3
        exact hpq (Prod.ext (string_append_inj a1) (string_append_inj a2))
      have h2 : (p == (u, v)) = false := by
        rw [beq_eq_false_iff_ne]
        exact hpq
      rw [h1, h2]

theorem listPairs_count_pair {l : List String} (hnd : l.Nodup)
    {a b : String} (ha : a ∈ l) (hb : b ∈ l) (hab : a ≠ b) :
    (listPairs l).count (a, b) + (listPairs l).count (b, a) = 1 := by
  induction l with
  | nil => cases ha
  | cons x xs ih =>
    rw [List.nodup_cons] at hnd
    rw [listPairs, List.count_append, List.count_append, count_map_pair, count_map_pair]
    by_cases hax : a = x
    · subst hax
      have hbx : b ∈ xs := by
        cases List.mem_cons.mp hb with
        | inl h0 => exact absurd h0.symm hab
        | inr h0 => exact h0
      rw [if_pos rfl, if_neg fun hba => hab hba.symm]
      rw [List.count_eq_one_of_mem hnd.2 hbx]
      have hz1 : (listPairs xs).count (a, b) = 0 := by
        rw [List.count_eq_zero]
        intro hm
        exact hnd.1 (mem_listPairs hm).1
      have hz2 : (listPairs xs).count (b, a) = 0 := by
        rw [List.count_eq_zero]
        intro hm
        exact hnd.1 (mem_listPairs hm).2
      rw [hz1, hz2]
    · by_cases hbxe : b = x
      · subst hbxe
        have hax2 : a ∈ xs := by
          cases List.mem_cons.mp ha with
          | inl h0 => exact absurd h0 hax
          | inr h0 => exact h0
        rw [if_neg hax, if_pos rfl]
        rw [List.count_eq_one_of_mem hnd.2 hax2]
        have hz1 : (listPairs xs).count (a, b) = 0 := by
          rw [List.count_eq_zero]
          intro hm
          exact hnd.1 (mem_listPairs hm).2
        have hz2 : (listPairs xs).count (b, a) = 0 := by
          rw [List.count_eq_zero]
          intro hm
          exact hnd.1 (mem_listPairs hm).1
        rw [hz1, hz2]
      · have ha2 : a ∈ xs := by
          cases List.mem_cons.mp ha with
          | inl h0 => exact absurd h0 hax
          | inr h0 => exact h0
        have hb2 : b ∈ xs := by
          cases List.mem_cons.mp hb with
          | inl h0 => exact absurd h0 hbxe
          | inr h0 => exact h0
        rw [if_neg hax, if_neg hbxe]
        have := ih hnd.2 ha2 hb2
        omega

theorem filter_fileBlock_EEPred (g : InputFile) (fid : String) :
    (fileBlock g).filter (isEEdgeOfFile fid) = [] := by
  rw [List.filter_eq_nil_iff]
  intro e he hpe
  cases mem_fileBlock he with
  | inl h2 =>
    obtain ⟨a, w, hew, _⟩ := h2
    subst hew
    simp [isEEdgeOfFile] at hpe
  | inr h2 =>
    obtain ⟨a, w, hew, _⟩ := h2
    subst hew
    simp [isEEdgeOfFile] at hpe

theorem filter_fileBlock_ETPred (g : InputFile) (fid : String) :
    (fileBlock g).filter (isETdgeOfFile fid) = [] := by
  rw [List.filter_eq_nil_iff]
  intro e he hpe
  cases mem_fileBlock he with
  | inl h2 =>
    obtain ⟨a, w, hew, _⟩ := h2
    subst hew
    simp [isETdgeOfFile] at hpe
  | inr h2 =>
    obtain ⟨a, w, hew, _⟩ := h2
    subst hew
    simp [isETdgeOfFile] at hpe

theorem filter_cooccur_EEPred_ne {g : InputFile} {fid : String}
    (h : "file:" ++ g.path ≠ fid) :
    (cooccurBlock ("file:" ++ g.path, g.text)).filter (isEEdgeOfFile fid) = [] := by
  rw [List.filter_eq_nil_iff]
  intro e he hpe
  cases mem_cooccurEdges (show e ∈ cooccurEdges ("file:" ++ g.path) _ _ from he) with
  | inl h2 =>
    obtain ⟨a, b, hew, _, _⟩ := h2
    subst hew
    simp only [isEEdgeOfFile, beq_iff_eq] at hpe
    exact h hpe
  | inr h2 =>
    obtain ⟨a, b, hew, _, _⟩ := h2
    subst hew
    simp [isEEdgeOfFile] at hpe

theorem filter_cooccur_ETPred_ne {g : InputFile} {fid : String}
    (h : "file:" ++ g.path ≠ fid) :
    (cooccurBlock ("file:" ++ g.path, g.text)).filter (isETdgeOfFile fid) = [] := by
  rw [List.filter_eq_nil_iff]
  intro e he hpe
  cases mem_cooccurEdges (show e ∈ cooccurEdges ("file:" ++ g.path) _ _ from he) with
  | inl h2 =>
    obtain ⟨a, b, hew, _, _⟩ := h2
    subst hew
    simp [isETdgeOfFile] at hpe
  | inr h2 =>
    obtain ⟨a, b, hew, _, _⟩ := h2
    subst hew
    simp only [isETdgeOfFile, beq_iff_eq] at hpe
    exact h hpe

theorem filter_edges_EE {files : List InputFile} {f : InputFile}
    (hnd : pathsNodup files) (hf : f ∈ files) (hp : processedFile f = true) :
    (build_kg files).edges.filter (isEEdgeOfFile ("file:" ++ f.path)) =
      (listPairs (pySetList (find_entities f.text))).map fun p =>
        Edge.entityRelatedToEntity ("entity:" ++ p.1) ("entity:" ++ p.2)
          ("file:" ++ f.path) := by
  have hreg : f ∈ registeredFiles files := List.mem_filter.mpr ⟨hf, hp⟩
  have hrnd := registered_map_paths_nodup hnd
  rw [build_kg_edges, List.filter_append, runPass1_edges, runPass1_file_texts hnd,
    List.flatMap_map]
  have h1 : ((registeredFiles files).flatMap fileBlock).filter
      (isEEdgeOfFile ("file:" ++ f.path)) = [] :=
    filter_flatMap_nil _ fun g _ => filter_fileBlock_EEPred g _
  have h2 : ((registeredFiles files).flatMap
        fun g => cooccurBlock ("file:" ++ g.path, g.text)).filter
      (isEEdgeOfFile ("file:" ++ f.path)) =
      (cooccurBlock ("file:" ++ f.path, f.text)).filter
        (isEEdgeOfFile ("file:" ++ f.path)) := by
    refine filter_flatMap_single _ hreg hrnd _ ?_
    intro g _ hgf
    exact filter_cooccur_EEPred_ne fun hx => hgf (string_append_inj hx)
  rw [h1, h2, List.nil_append]
  rw [cooccurBlock, cooccurEdges, List.filter_append]
  have h3 : (((listProd (pySetList (find_entities f.text))
        (pySetList (find_topics f.text))).map fun p =>
        Edge.entityRelatedToTopic ("entity:" ++ p.1) ("topic:" ++ p.2)
          ("file:" ++ f.path)).filter (isEEdgeOfFile ("file:" ++ f.path))) = [] := by
    rw [List.filter_eq_nil_iff]
    intro e he hpe
    rw [List.mem_map] at he
    obtain ⟨p, _, hpe2⟩ := he
    subst hpe2
    simp [isEEdgeOfFile] at hpe
  have h4 : (((listPairs (pySetList (find_entities f.text))).map fun p =>
        Edge.entityRelatedToEntity ("entity:" ++ p.1) ("entity:" ++ p.2)
          ("file:" ++ f.path)).filter (isEEdgeOfFile ("file:" ++ f.path))) =
      (listPairs (pySetList (find_entities f.text))).map fun p =>
        Edge.entityRelatedToEntity ("entity:" ++ p.1) ("entity:" ++ p.2)
          ("file:" ++ f.path) := by
    rw [List.filter_eq_self]
    intro e he
    rw [List.mem_map] at he
    obtain ⟨p, _, hpe2⟩ := he
    subst hpe2
    simp [isEEdgeOfFile]
  rw [h3, h4, List.append_nil]

theorem filter_edges_ET {files : List InputFile} {f : InputFile}
    (hnd : pathsNodup files) (hf : f ∈ files) (hp : processedFile f = true) :
    (build_kg files).edges.filter (isETdgeOfFile ("file:" ++ f.path)) =
      (listProd (pySetList (find_entities f.text))
        (pySetList (find_topics f.text))).map fun p =>
        Edge.entityRelatedToTopic ("entity:" ++ p.1) ("topic:" ++ p.2)
          ("file:" ++ f.path) := by
  have hreg : f ∈ registeredFiles files := List.mem_filter.mpr ⟨hf, hp⟩
  have hrnd := registered_map_paths_nodup hnd
  rw [build_kg_edges, List.filter_append, runPass1_edges, runPass1_file_texts hnd,
    List.flatMap_map]
  have h1 : ((registeredFiles files).flatMap fileBlock).filter
      (isETdgeOfFile ("file:" ++ f.path)) = [] :=
    filter_flatMap_nil _ fun g _ => filter_fileBlock_ETPred g _
  have h2 : ((registeredFiles files).flatMap
        fun g => cooccurBlock ("file:" ++ g.path, g.text)).filter
      (isETdgeOfFile ("file:" ++ f.path)) =
      (cooccurBlock ("file:" ++ f.path, f.text)).filter
        (isETdgeOfFile ("file:" ++ f.path)) := by
    refine filter_flatMap_single _ hreg hrnd _ ?_
    intro g _ hgf
    exact filter_cooccur_ETPred_ne fun hx => hgf (string_append_inj hx)
  rw [h1, h2, List.nil_append]
  rw [cooccurBlock, cooccurEdges, List.filter_append]
  have h3 : (((listPairs (pySetList (find_entities f.text))).map fun p =>
        Edge.entityRelatedToEntity ("entity:" ++ p.1) ("entity:" ++ p.2)
          ("file:" ++ f.path)).filter (isETdgeOfFile ("file:" ++ f.path))) = [] := by
    rw [List.filter_eq_nil_iff]
    intro e he hpe
    rw [List.mem_map] at he
    obtain ⟨p, _, hpe2⟩ := he
    subst hpe2
    simp [isETdgeOfFile] at hpe
  have h4 : (((listProd (pySetList (find_entities f.text))
        (pySetList (find_topics f.text))).map fun p =>
        Edge.entityRelatedToTopic ("entity:" ++ p.1) ("topic:" ++ p.2)
          ("file:" ++ f.path)).filter (isETdgeOfFile ("file:" ++ f.path))) =
      (listProd (pySetList (find_entities f.text))
        (pySetList (find_topics f.text))).map fun p =>
        Edge.entityRelatedToTopic ("entity:" ++ p.1) ("topic:" ++ p.2)
          ("file:" ++ f.path) := by
    rw [List.filter_eq_self]
    intro e he
    rw [List.mem_map] at he
    obtain ⟨p, _, hpe2⟩ := he
    subst hpe2
    simp [isETdgeOfFile]
  rw [h3, h4, List.nil_append]

theorem count_map_edge_ET (es : List (String × String)) (fid : String) (u v : String) :
    ((es.map fun p => Edge.entityRelatedToTopic ("entity:" ++ p.1) ("topic:" ++ p.2)
        fid).count
      (Edge.entityRelatedToTopic ("entity:" ++ u) ("topic:" ++ v) fid)) =
      es.count (u, v) := by
  induction es with
  | nil => rfl
  | cons p t ih =>
    rw [List.map_cons, List.count_cons, List.count_cons, ih]
    by_cases hpq : p = (u, v)
    · subst hpq
      simp
    · have h1 : (Edge.entityRelatedToTopic ("entity:" ++ p.1) ("topic:" ++ p.2) fid ==
          Edge.entityRelatedToTopic ("entity:" ++ u) ("topic:" ++ v) fid) = false := by
        rw [beq_eq_false_iff_ne]
        intro hx
        injection hx with a1 a2 a3
        exact hpq (Prod.ext (string_append_inj a1) (string_append_inj a2))
      have h2 : (p == (u, v)) = false := by
        rw [beq_eq_false_iff_ne]
        exact hpq
      rw [h1, h2]

theorem listProd_count_pair {l1 l2 : List String} (h1 : l1.Nodup) (h2 : l2.Nodup)
    {a t : String} (ha : a ∈ l1) (ht : t ∈ l2) :
    (listProd l1 l2).count (a, t) = 1 := by
  induction l1 with
  | nil => cases ha
  | cons x xs ih =>
    rw [List.nodup_cons] at h1
    rw [listProd, List.count_append, count_map_pair]
    by_cases hax : a = x
    · rw [if_pos hax, List.count_eq_one_of_mem h2 ht]
      have hz : (listProd xs l2).count (a, t) = 0 := by
        rw [List.count_eq_zero]
        intro hm
        exact h1.1 (hax ▸ (mem_listProd hm).1)
      rw [hz]
    · rw [if_neg hax]
      have hax2 : a ∈ xs := by
        cases List.mem_cons.mp ha with
        | inl h0 => exact absurd h0 hax
        | inr h0 => exact h0
      rw [ih h1.2 hax2]

/-- C2: for every registered file with n deduplicated entities and m
deduplicated topics, the second pass appends exactly n(n-1)/2
ENTITY_RELATED_TO_ENTITY edges tagged with that file, each unordered pair of
distinct entities covered exactly once, and exactly n*m
ENTITY_RELATED_TO_TOPIC edges, each (entity, topic) pair covered exactly
once. -/
theorem claim_C2 (files : List InputFile) (f : InputFile)
    (hnd : pathsNodup files) (hf : f ∈ files) (hp : processedFile f = true) :
    ((build_kg files).edges.filter (isEEdgeOfFile ("file:" ++ f.path))).length =
      (pySetList (find_entities f.text)).length *
        ((pySetList (find_entities f.text)).length - 1) / 2 ∧
    (∀ a ∈ pySetList (find_entities f.text), ∀ b ∈ pySetList (find_entities f.text),
      a ≠ b →
      ((build_kg files).edges.filter (isEEdgeOfFile ("file:" ++ f.path))).count
          (Edge.entityRelatedToEntity ("entity:" ++ a) ("entity:" ++ b)
            ("file:" ++ f.path)) +
        ((build_kg files).edges.filter (isEEdgeOfFile ("file:" ++ f.path))).count
          (Edge.entityRelatedToEntity ("entity:" ++ b) ("entity:" ++ a)
            ("file:" ++ f.path)) = 1) ∧
    ((build_kg files).edges.filter (isETdgeOfFile ("file:" ++ f.path))).length =
      (pySetList (find_entities f.text)).length *
        (pySetList (find_topics f.text)).length ∧
    ∀ a ∈ pySetList (find_entities f.text), ∀ t ∈ pySetList (find_topics f.text),
      ((build_kg files).edges.filter (isETdgeOfFile ("file:" ++ f.path))).count
          (Edge.entityRelatedToTopic ("entity:" ++ a) ("topic:" ++ t)
            ("file:" ++ f.path)) = 1 := by
  have hEE := filter_edges_EE hnd hf hp
  have hET := filter_edges_ET hnd hf hp
  refine ⟨?_, ?_, ?_, ?_⟩
  · rw [hEE, List.length_map, listPairs_length, Nat.choose_two_right]
  · intro a ha b hb hab
    rw [hEE]
    have hc1 := count_map_edge (listPairs (pySetList (find_entities f.text)))
      ("file:" ++ f.path) a b
    have hc2 := count_map_edge (listPairs (pySetList (find_entities f.text)))
      ("file:" ++ f.path) b a
    rw [hc1, hc2]
    exact listPairs_count_pair (pySetList_nodup _) ha hb hab
  · rw [hET, List.length_map, listProd_length]
  · intro a ha t ht
    rw [hET, count_map_edge_ET]
    exact listProd_count_pair (pySetList_nodup _) (pySetList_nodup _) ha ht

theorem claim_C2_witness :
    pathsNodup [fileA, fileB] ∧ fileB ∈ [fileA, fileB] ∧ processedFile fileB = true ∧
    ((build_kg [fileA, fileB]).edges.filter
        (isEEdgeOfFile ("file:" ++ fileB.path))).length =
      (pySetList (find_entities fileB.text)).length *
        ((pySetList (find_entities fileB.text)).length - 1) / 2 ∧
    ((build_kg [fileA, fileB]).edges.filter
        (isETdgeOfFile ("file:" ++ fileB.path))).length =
      (pySetList (find_entities fileB.text)).length *
        (pySetList (find_topics fileB.text)).length ∧
    ∀ a ∈ pySetList (find_entities fileB.text),
      ∀ t ∈ pySetList (find_topics fileB.text),
      ((build_kg [fileA, fileB]).edges.filter
          (isETdgeOfFile ("file:" ++ fileB.path))).count
        (Edge.entityRelatedToTopic ("entity:" ++ a) ("topic:" ++ t)
          ("file:" ++ fileB.path)) = 1 :=
  ⟨by decide, by decide, by decide,
    (claim_C2 [fileA, fileB] fileB (by decide) (by decide) (by decide)).1,
    (claim_C2 [fileA, fileB] fileB (by decide) (by decide) (by decide)).2.2.1,
    (claim_C2 [fileA, fileB] fileB (by decide) (by decide) (by decide)).2.2.2⟩

theorem dictInsertFileNode_ids_nodup {l : List FileNode} {n : FileNode}
    (h : (l.map FileNode.id).Nodup) :
    ((dictInsertFileNode l n).map FileNode.id).Nodup := by
  rw [dictInsertFileNode]
  by_cases hb : (l.any fun m => m.id == n.id) = true
  · rw [if_pos hb, map_id_replace]
    exact h
  · rw [if_neg hb, List.map_append]
    refine List.Nodup.append h (by simp) ?_
    intro x hx hk
    simp only [List.map_cons, List.map_nil, List.mem_singleton] at hk
    subst hk
    exact hb ((any_id_iff l n.id).mpr hx)

theorem step1_fileIds_nodup {s : KG} (f : InputFile) (h : (fileIds s).Nodup) :
    (fileIds (step1 s f)).Nodup := by
  rw [fileIds, step1_fileNodes]
  by_cases hp : processedFile f = true
  · rw [if_pos hp]
    exact dictInsertFileNode_ids_nodup h
  · rw [if_neg hp]
    exact h

theorem addEntityEdge_entityIds_nodup {fid : String} {s : KG} {p : String × Nat}
    (h : (entityIds s).Nodup) : (entityIds (addEntityEdge fid s p)).Nodup := by
  simp only [addEntityEdge, entityIds]
  by_cases hb : (s.entityNodes.any fun n => n.id == ("entity:" ++ p.1)) = true
  · rw [if_pos hb]
    exact h
  · rw [if_neg hb, List.map_append]
    refine List.Nodup.append h (by simp) ?_
    intro x hx hk
    simp only [List.map_cons, List.map_nil, List.mem_singleton] at hk
    subst hk
    exact hb ((any_tid_iff s.entityNodes _).mpr hx)

theorem addTopicEdge_topicIds_nodup {fid : String} {s : KG} {p : String × Nat}
    (h : (topicIds s).Nodup) : (topicIds (addTopicEdge fid s p)).Nodup := by
  simp only [addTopicEdge, topicIds]
  by_cases hb : (s.topicNodes.any fun n => n.id == ("topic:" ++ p.1)) = true
  · rw [if_pos hb]
    exact h
  · rw [if_neg hb, List.map_append]
    refine List.Nodup.append h (by simp) ?_
    intro x hx hk
    simp only [List.map_cons, List.map_nil, List.mem_singleton] at hk
    subst hk
    exact hb ((any_tid_iff s.topicNodes _).mpr hx)

theorem foldl_addEntityEdge_entityIds_nodup (ec : Counter) (fid : String) {s : KG}
    (h : (entityIds s).Nodup) :
    (entityIds (ec.foldl (addEntityEdge fid) s)).Nodup := by
  induction ec generalizing s with
  | nil => exact h
  | cons p t ih =>
    rw [List.foldl_cons]
    exact ih (addEntityEdge_entityIds_nodup h)

theorem foldl_addTopicEdge_topicIds_nodup (tc : Counter) (fid : String) {s : KG}
    (h : (topicIds s).Nodup) :
    (topicIds (tc.foldl (addTopicEdge fid) s)).Nodup := by
  induction tc generalizing s with
  | nil => exact h
  | cons p t ih =>
    rw [List.foldl_cons]
    exact ih (addTopicEdge_topicIds_nodup h)

theorem step1_entityIds_nodup {s : KG} (f : InputFile) (h : (entityIds s).Nodup) :
    (entityIds (step1 s f)).Nodup := by
  by_cases hp : processedFile f = true
  · rw [step1_processed s hp]
    have h1 : ∀ g : KG, entityIds
        ((counterOfList (find_topics f.text)).foldl (addTopicEdge ("file:" ++ f.path)) g) =
        entityIds g := by
      intro g
      simp only [entityIds, foldl_addTopicEdge_entityNodes]
    rw [h1]
    exact foldl_addEntityEdge_entityIds_nodup _ _ h
  · have hp2 : processedFile f = false := by rw [Bool.eq_false_iff]; exact hp
    rw [step1_not_processed s hp2]
    exact h

theorem step1_topicIds_nodup {s : KG} (f : InputFile) (h : (topicIds s).Nodup) :
    (topicIds (step1 s f)).Nodup := by
  by_cases hp : processedFile f = true
  · rw [step1_processed s hp]
    refine foldl_addTopicEdge_topicIds_nodup _ _ ?_
    have h1 : ∀ g : KG, topicIds
        ((counterOfList (find_entities f.text)).foldl (addEntityEdge ("file:" ++ f.path)) g) =
        topicIds g := by
      intro g
      simp only [topicIds, foldl_addEntityEdge_topicNodes]
    rw [h1]
    exact h
  · have hp2 : processedFile f = false := by rw [Bool.eq_false_iff]; exact hp
    rw [step1_not_processed s hp2]
    exact h

theorem runPass1_fileIds_nodup (files : List InputFile) :
    (fileIds (runPass1 files)).Nodup := by
  rw [runPass1]
  have h : ∀ s : KG, (fileIds s).Nodup → (fileIds (files.foldl step1 s)).Nodup := by
    induction files with
    | nil => exact fun s h => h
    | cons f t ih =>
      intro s h
      rw [List.foldl_cons]
      exact ih _ (step1_fileIds_nodup f h)
  exact h emptyKG (by simp [fileIds, emptyKG])

theorem runPass1_entityIds_nodup (files : List InputFile) :
    (entityIds (runPass1 files)).Nodup := by
  rw [runPass1]
  have h : ∀ s : KG, (entityIds s).Nodup → (entityIds (files.foldl step1 s)).Nodup := by
    induction files with
    | nil => exact fun s h => h
    | cons f t ih =>
      intro s h
      rw [List.foldl_cons]
      exact ih _ (step1_entityIds_nodup f h)
  exact h emptyKG (by simp [entityIds, emptyKG])

theorem runPass1_topicIds_nodup (files : List InputFile) :
    (topicIds (runPass1 files)).Nodup := by
  rw [runPass1]
  have h : ∀ s : KG, (topicIds s).Nodup → (topicIds (files.foldl step1 s)).Nodup := by
    induction files with
    | nil => exact fun s h => h
    | cons f t ih =>
      intro s h
      rw [List.foldl_cons]
      exact ih _ (step1_topicIds_nodup f h)
  exact h emptyKG (by simp [topicIds, emptyKG])

/-- C5: no two nodes of the same type share a name: the id lists of the three
node collections are duplicate-free (so a name already present never gains a
second node, and two nodes with equal ids are the same record), and every
containment edge's target id is present in the corresponding node
collection. -/
theorem claim_C5 (files : List InputFile) :
    (fileIds (build_kg files)).Nodup ∧
    (entityIds (build_kg files)).Nodup ∧
    (topicIds (build_kg files)).Nodup ∧
    (∀ n1 ∈ (build_kg files).entityNodes, ∀ n2 ∈ (build_kg files).entityNodes,
      n1.id = n2.id → n1 = n2) ∧
    (∀ e ∈ (build_kg files).edges, ∀ a b w,
      e = Edge.fileContainsEntity a b w → b ∈ entityIds (build_kg files)) ∧
    ∀ e ∈ (build_kg files).edges, ∀ a b w,
      e = Edge.fileContainsTopic a b w → b ∈ topicIds (build_kg files) := by
  have hfid : fileIds (build_kg files) = fileIds (runPass1 files) := by
    simp only [fileIds, build_kg_fileNodes]
  have heid : entityIds (build_kg files) = entityIds (runPass1 files) := by
    simp only [entityIds, build_kg_entityNodes]
  have htid : topicIds (build_kg files) = topicIds (runPass1 files) := by
    simp only [topicIds, build_kg_topicNodes]
  refine ⟨?_, ?_, ?_, ?_, ?_, ?_⟩
  · rw [hfid]
    exact runPass1_fileIds_nodup files
  · rw [heid]
    exact runPass1_entityIds_nodup files
  · rw [htid]
    exact runPass1_topicIds_nodup files
  · intro n1 h1 n2 h2 he
    have hn : (entityIds (build_kg files)).Nodup := by
      rw [heid]
      exact runPass1_entityIds_nodup files
    exact List.inj_on_of_nodup_map hn h1 h2 he
  · intro e he a b w hew
    subst hew
    rw [build_kg_edges, List.mem_append] at he
    cases he with
    | inl h1 =>
      rw [runPass1_edges, List.mem_flatMap] at h1
      obtain ⟨g, hg, hge⟩ := h1
      cases mem_fileBlock hge with
      | inl h2 =>
        obtain ⟨t, w2, hew2, hmem⟩ := h2
        injection hew2 with e1 e2 e3
        rw [heid, runPass1, e2]
        rw [show entityIds (files.foldl step1 emptyKG) =
          entityIds (files.foldl step1 emptyKG) from rfl]
        rw [foldl_step1_entityIds]
        exact Or.inr ⟨g, hg, t, hmem, rfl⟩
      | inr h2 =>
        obtain ⟨t, w2, hew2, _⟩ := h2
        simp at hew2
    | inr h1 =>
      rw [List.mem_flatMap] at h1
      obtain ⟨ft, _, hge⟩ := h1
      cases mem_cooccurEdges (show _ ∈ cooccurEdges ft.1 _ _ from hge) with
      | inl h2 =>
        obtain ⟨_, _, hew2, _, _⟩ := h2
        simp at hew2
      | inr h2 =>
        obtain ⟨_, _, hew2, _, _⟩ := h2
        simp at hew2
  · intro e he a b w hew
    subst hew
    rw [build_kg_edges, List.mem_append] at he
    cases he with
    | inl h1 =>
      rw [runPass1_edges, List.mem_flatMap] at h1
      obtain ⟨g, hg, hge⟩ := h1
      cases mem_fileBlock hge with
      | inl h2 =>
        obtain ⟨t, w2, hew2, _⟩ := h2
        simp at hew2
      | inr h2 =>
        obtain ⟨t, w2, hew2, hmem⟩ := h2
        injection hew2 with e1 e2 e3
        rw [htid, runPass1, e2]
        rw [foldl_step1_topicIds]
        exact Or.inr ⟨g, hg, t, hmem, rfl⟩
    | inr h1 =>
      rw [List.mem_flatMap] at h1
      obtain ⟨ft, _, hge⟩ := h1
      cases mem_cooccurEdges (show _ ∈ cooccurEdges ft.1 _ _ from hge) with
      | inl h2 =>
        obtain ⟨_, _, hew2, _, _⟩ := h2
        simp at hew2
      | inr h2 =>
        obtain ⟨_, _, hew2, _, _⟩ := h2
        simp at hew2

theorem pySetList_subset {ws : List String} {x : String} (h : x ∈ pySetList ws) : x ∈ ws :=
  (mem_pyDedupAux.mp h).1

theorem dictInsertText_mem {l : List (String × List Char)} {k : String} {v : List Char}
    {p : String × List Char} (h : p ∈ dictInsertText l k v) : p ∈ l ∨ p = (k, v) := by
  rw [dictInsertText] at h
  by_cases hb : (l.any fun q => q.1 == k) = true
  · rw [if_pos hb, List.mem_map] at h
    obtain ⟨q, hq, he⟩ := h
    by_cases hqk : (q.1 == k) = true
    · rw [if_pos hqk] at he
      exact Or.inr he.symm
    · rw [if_neg hqk] at he
      exact Or.inl (he ▸ hq)
  · rw [if_neg hb, List.mem_append] at h
    cases h with
    | inl h0 => exact Or.inl h0
    | inr h0 =>
      rw [List.mem_singleton] at h0
      exact Or.inr h0

theorem file_texts_shape (files : List InputFile) (s : KG) :
    ∀ p ∈ (files.foldl step1 s).file_texts,
      p ∈ s.file_texts ∨ ∃ g ∈ registeredFiles files, p = ("file:" ++ g.path, g.text) := by
  induction files generalizing s with
  | nil => exact fun p hp => Or.inl hp
  | cons f t ih =>
    intro p hp
    rw [List.foldl_cons] at hp
    cases ih (step1 s f) p hp with
    | inl h0 =>
      rw [step1_file_texts] at h0
      by_cases hpr : processedFile f = true
      · rw [if_pos hpr] at h0
        cases dictInsertText_mem h0 with
        | inl h1 => exact Or.inl h1
        | inr h1 =>
          exact Or.inr ⟨f, List.mem_filter.mpr ⟨List.mem_cons_self .., hpr⟩, h1⟩
      · rw [if_neg hpr] at h0
        exact Or.inl h0
    | inr h0 =>
      obtain ⟨g, hg, he⟩ := h0
      have hg2 := List.mem_filter.mp (show g ∈ List.filter processedFile t from hg)
      exact Or.inr ⟨g, List.mem_filter.mpr ⟨List.mem_cons_of_mem _ hg2.1, hg2.2⟩, he⟩

theorem runPass1_file_texts_shape {files : List InputFile} {fid : String} {text : List Char}
    (h : (fid, text) ∈ (runPass1 files).file_texts) :
    ∃ g ∈ registeredFiles files, fid = "file:" ++ g.path ∧ text = g.text := by
  cases file_texts_shape files emptyKG (fid, text) h with
  | inl h0 => cases h0
  | inr h0 =>
    obtain ⟨g, hg, he⟩ := h0
    exact ⟨g, hg, congrArg Prod.fst he, congrArg Prod.snd he⟩

theorem edgesClosed_runPass1 (files : List InputFile) : edgesClosed (runPass1 files) := by
  intro e he
  rw [runPass1_edges, List.mem_flatMap] at he
  obtain ⟨g, hg, hge⟩ := he
  cases mem_fileBlock hge with
  | inl h2 =>
    obtain ⟨t, w, hew, hmem⟩ := h2
    subst hew
    refine ⟨?_, ?_⟩
    · exact (foldl_step1_fileIds files emptyKG _).mpr (Or.inr ⟨g, hg, rfl⟩)
    · exact (foldl_step1_entityIds files emptyKG _).mpr (Or.inr ⟨g, hg, t, hmem, rfl⟩)
  | inr h2 =>
    obtain ⟨t, w, hew, hmem⟩ := h2
    subst hew
    refine ⟨?_, ?_⟩
    · exact (foldl_step1_fileIds files emptyKG _).mpr (Or.inr ⟨g, hg, rfl⟩)
    · exact (foldl_step1_topicIds files emptyKG _).mpr (Or.inr ⟨g, hg, t, hmem, rfl⟩)

theorem edgeClosed_of_same_nodes {s1 s2 : KG} (hf : s2.fileNodes = s1.fileNodes)
    (he : s2.entityNodes = s1.entityNodes) (ht : s2.topicNodes = s1.topicNodes)
    {e : Edge} (h : edgeClosed s1 e) : edgeClosed s2 e := by
  cases e with
  | fileContainsEntity a b w =>
    exact ⟨by rw [fileIds, hf]; exact h.1, by rw [entityIds, he]; exact h.2⟩
  | fileContainsTopic a b w =>
    exact ⟨by rw [fileIds, hf]; exact h.1, by rw [topicIds, ht]; exact h.2⟩
  | entityRelatedToEntity a b g =>
    exact ⟨by rw [entityIds, he]; exact h.1, by rw [entityIds, he]; exact h.2⟩
  | entityRelatedToTopic a b g =>
    exact ⟨by rw [entityIds, he]; exact h.1, by rw [topicIds, ht]; exact h.2⟩

theorem cooccur_edges_closed {files : List InputFile} {fid : String} {text : List Char}
    (hmem : (fid, text) ∈ (runPass1 files).file_texts) :
    ∀ e ∈ cooccurBlock (fid, text), edgeClosed (runPass1 files) e := by
  intro e he
  obtain ⟨g, hg, hfid, htext⟩ := runPass1_file_texts_shape hmem
  cases mem_cooccurEdges (show e ∈ cooccurEdges fid _ _ from he) with
  | inl h2 =>
    obtain ⟨a, b, hew, hma, hmb⟩ := h2
    subst hew
    have hma2 : a ∈ find_entities g.text := htext ▸ pySetList_subset hma
    have hmb2 : b ∈ find_entities g.text := htext ▸ pySetList_subset hmb
    refine ⟨?_, ?_⟩
    · exact (foldl_step1_entityIds files emptyKG _).mpr (Or.inr ⟨g, hg, a, hma2, rfl⟩)
    · exact (foldl_step1_entityIds files emptyKG _).mpr (Or.inr ⟨g, hg, b, hmb2, rfl⟩)
  | inr h2 =>
    obtain ⟨a, b, hew, hma, hmb⟩ := h2
    subst hew
    have hma2 : a ∈ find_entities g.text := htext ▸ pySetList_subset hma
    have hmb2 : b ∈ find_topics g.text := htext ▸ pySetList_subset hmb
    refine ⟨?_, ?_⟩
    · exact (foldl_step1_entityIds files emptyKG _).mpr (Or.inr ⟨g, hg, a, hma2, rfl⟩)
    · exact (foldl_step1_topicIds files emptyKG _).mpr (Or.inr ⟨g, hg, b, hmb2, rfl⟩)

/-- C6: every edge is appended with both endpoints already present in the node
collections: after any prefix of the first pass the edge list is closed under
the node collections of that moment; after any prefix of the second pass the
same holds; and every co-occurrence edge of a `file_texts` entry references
only entity/topic ids derived from that same file's text, all of which the
first pass created. -/
theorem claim_C6 (files : List InputFile) :
    (∀ pre suf : List InputFile, files = pre ++ suf → edgesClosed (runPass1 pre)) ∧
    (∀ pre suf : List (String × List Char),
      (runPass1 files).file_texts = pre ++ suf →
      edgesClosed (pre.foldl step2 (runPass1 files))) ∧
    ∀ fid text, (fid, text) ∈ (runPass1 files).file_texts →
      ∀ e ∈ cooccurBlock (fid, text),
        edgeClosed (runPass1 files) e ∧
        (∀ a b g, e = Edge.entityRelatedToEntity a b g →
          g = fid ∧ (∃ x ∈ find_entities text, a = "entity:" ++ x) ∧
            ∃ x ∈ find_entities text, b = "entity:" ++ x) ∧
        ∀ a b g, e = Edge.entityRelatedToTopic a b g →
          g = fid ∧ (∃ x ∈ find_entities text, a = "entity:" ++ x) ∧
            ∃ x ∈ find_topics text, b = "topic:" ++ x := by
  refine ⟨?_, ?_, ?_⟩
  · intro pre suf hsplit
    exact edgesClosed_runPass1 pre
  · intro pre suf hsplit
    intro e he
    rw [foldl_step2_edges, List.mem_append] at he
    have hnodes_f : (pre.foldl step2 (runPass1 files)).fileNodes =
        (runPass1 files).fileNodes := foldl_step2_fileNodes _ _
    have hnodes_e : (pre.foldl step2 (runPass1 files)).entityNodes =
        (runPass1 files).entityNodes := foldl_step2_entityNodes _ _
    have hnodes_t : (pre.foldl step2 (runPass1 files)).topicNodes =
        (runPass1 files).topicNodes := foldl_step2_topicNodes _ _
    refine edgeClosed_of_same_nodes hnodes_f hnodes_e hnodes_t ?_
    cases he with
    | inl h0 => exact edgesClosed_runPass1 files e h0
    | inr h0 =>
      rw [List.mem_flatMap] at h0
      obtain ⟨ft, hft, hfe⟩ := h0
      have hft2 : ft ∈ (runPass1 files).file_texts := by
        rw [hsplit, List.mem_append]
        exact Or.inl hft
      exact cooccur_edges_closed (show (ft.1, ft.2) ∈ _ from hft2) e hfe
  · intro fid text hmem e he
    refine ⟨cooccur_edges_closed hmem e he, ?_, ?_⟩
    · intro a b g hew
      subst hew
      cases mem_cooccurEdges (show _ ∈ cooccurEdges fid _ _ from he) with
      | inl h2 =>
        obtain ⟨x, y, hxy, hmx, hmy⟩ := h2
        injection hxy with e1 e2 e3
        exact ⟨e3, ⟨x, pySetList_subset hmx, e1⟩, ⟨y, pySetList_subset hmy, e2⟩⟩
      | inr h2 =>
        obtain ⟨x, y, hxy, _, _⟩ := h2
        simp at hxy
    · intro a b g hew
      subst hew
      cases mem_cooccurEdges (show _ ∈ cooccurEdges fid _ _ from he) with
      | inl h2 =>
        obtain ⟨x, y, hxy, _, _⟩ := h2
        simp at hxy
      | inr h2 =>
        obtain ⟨x, y, hxy, hmx, hmy⟩ := h2
        injection hxy with e1 e2 e3
        exact ⟨e3, ⟨x, pySetList_subset hmx, e1⟩, ⟨y, pySetList_subset hmy, e2⟩⟩

theorem claim_C6_witness :
    [fileA] = [] ++ [fileA] ∧ edgesClosed (runPass1 ([] : List InputFile)) :=
  ⟨rfl, (claim_C6 [fileA]).1 [] [fileA] rfl⟩

theorem contains_eq_false_iff (l : List String) (a : String) :
    l.contains a = false ↔ a ∉ l := by
  rw [Bool.eq_false_iff]
  constructor
  · intro h hm
    exact h ((contains_iff l a).mpr hm)
  · intro h hb
    exact h ((contains_iff l a).mp hb)

theorem pyDedupAux_append (os ws : List String) :
    ∀ seen, pyDedupAux seen (os ++ ws) = pyDedupAux seen os ++ pyDedupAux (os ++ seen) ws := by
  induction os with
  | nil => intro seen; rfl
  | cons x os2 ih =>
    intro seen
    rw [List.cons_append, pyDedupAux, pyDedupAux]
    by_cases hb : seen.contains x = true
    · rw [if_pos hb, if_pos hb, ih seen]
      have hc : ∀ y, y ∈ os2 ++ seen ↔ y ∈ (x :: os2) ++ seen := by
        intro y
        constructor
        · intro h
          rw [List.mem_append] at h
          rw [List.cons_append, List.mem_cons]
          cases h with
          | inl h0 => exact Or.inr (List.mem_append.mpr (Or.inl h0))
          | inr h0 => exact Or.inr (List.mem_append.mpr (Or.inr h0))
        · intro h
          rw [List.cons_append, List.mem_cons] at h
          cases h with
          | inl h0 =>
            exact List.mem_append.mpr (Or.inr (h0 ▸ (contains_iff seen x).mp hb))
          | inr h0 => exact h0
      rw [pyDedupAux_congr hc ws]
    · rw [if_neg hb, if_neg hb, List.cons_append, ih (x :: seen)]
      have hc : ∀ y, y ∈ os2 ++ x :: seen ↔ y ∈ (x :: os2) ++ seen := by
        intro y
        rw [List.mem_append, List.mem_cons, List.cons_append, List.mem_cons, List.mem_append]
        constructor
        · intro h
          rcases h with h0 | h0 | h0
          · exact Or.inr (Or.inl h0)
          · exact Or.inl h0
          · exact Or.inr (Or.inr h0)
        · intro h
          rcases h with h0 | h0 | h0
          · exact Or.inr (Or.inl h0)
          · exact Or.inl h0
          · exact Or.inr (Or.inr h0)
      rw [pyDedupAux_congr hc ws]

theorem pyDedupAux_dedup (ws : List String) :
    ∀ seen s2, (∀ x ∈ s2, x ∈ seen) →
      pyDedupAux seen (pyDedupAux s2 ws) = pyDedupAux seen ws := by
  induction ws with
  | nil => intro seen s2 h; rfl
  | cons x t ih =>
    intro seen s2 hsub
    rw [pyDedupAux]
    by_cases h2 : s2.contains x = true
    · rw [if_pos h2]
      have hx : seen.contains x = true :=
        (contains_iff seen x).mpr (hsub x ((contains_iff s2 x).mp h2))
      rw [show pyDedupAux seen (x :: t) = pyDedupAux seen t from by
        rw [pyDedupAux, if_pos hx]]
      exact ih seen s2 hsub
    · rw [if_neg h2]
      by_cases hx : seen.contains x = true
      · rw [show pyDedupAux seen (x :: pyDedupAux (x :: s2) t) =
            pyDedupAux seen (pyDedupAux (x :: s2) t) from by
          rw [pyDedupAux, if_pos hx]]
        rw [show pyDedupAux seen (x :: t) = pyDedupAux seen t from by
          rw [pyDedupAux, if_pos hx]]
        refine ih seen (x :: s2) ?_
        intro y hy
        cases List.mem_cons.mp hy with
        | inl h0 => exact h0 ▸ (contains_iff seen x).mp hx
        | inr h0 => exact hsub y h0
      · have hxf : seen.contains x = false := by
          rw [Bool.eq_false_iff]; exact hx
        rw [show pyDedupAux seen (x :: pyDedupAux (x :: s2) t) =
            x :: pyDedupAux (x :: seen) (pyDedupAux (x :: s2) t) from by
          rw [pyDedupAux, if_neg hx]]
        rw [show pyDedupAux seen (x :: t) = x :: pyDedupAux (x :: seen) t from by
          rw [pyDedupAux, if_neg hx]]
        congr 1
        refine ih (x :: seen) (x :: s2) ?_
        intro y hy
        cases List.mem_cons.mp hy with
        | inl h0 => exact h0 ▸ List.mem_cons_self ..
        | inr h0 => exact List.mem_cons_of_mem _ (hsub y h0)

theorem counterKeys_merge_dedup {d : Counter} (c : Counter)
    (hd : (counterKeys d).Nodup) :
    counterKeys (counterMerge c d) =
      counterKeys c ++ pyDedupAux (counterKeys c) (counterKeys d) := by
  induction d generalizing c with
  | nil => simp [counterMerge, pyDedupAux]
  | cons p t ih =>
    have hck : counterKeys (p :: t) = p.1 :: counterKeys t := rfl
    rw [hck, List.nodup_cons] at hd
    simp only [counterMerge, List.foldl_cons]
    have ihh := ih (counterAddN c p.1 p.2) hd.2
    simp only [counterMerge] at ihh
    rw [ihh, counterKeys_addN, hck]
    by_cases hm : p.1 ∈ counterKeys c
    · rw [if_pos hm]
      rw [show pyDedupAux (counterKeys c) (p.1 :: counterKeys t) =
          pyDedupAux (counterKeys c) (counterKeys t) from by
        rw [pyDedupAux, if_pos ((contains_iff _ _).mpr hm)]]
    · rw [if_neg hm]
      rw [show pyDedupAux (counterKeys c) (p.1 :: counterKeys t) =
          p.1 :: pyDedupAux (p.1 :: counterKeys c) (counterKeys t) from by
        rw [pyDedupAux,
          if_neg (by rw [(contains_eq_false_iff _ _).mpr hm]; exact Bool.false_ne_true)]]
      rw [List.append_assoc, List.singleton_append]
      congr 1
      have hc : ∀ y, y ∈ counterKeys c ++ [p.1] ↔ y ∈ p.1 :: counterKeys c := by
        intro y
        rw [List.mem_append, List.mem_singleton, List.mem_cons, Or.comm]
      exact congrArg (List.cons p.1) (pyDedupAux_congr hc (counterKeys t))

theorem allEntityOccurrences_cons_pos {f : InputFile} (t : List InputFile)
    (hp : processedFile f = true) :
    allEntityOccurrences (f :: t) = find_entities f.text ++ allEntityOccurrences t := by
  rw [allEntityOccurrences, registeredFiles_cons_pos t hp, List.flatMap_cons]
  rfl

theorem allEntityOccurrences_cons_neg {f : InputFile} (t : List InputFile)
    (hp : processedFile f = false) :
    allEntityOccurrences (f :: t) = allEntityOccurrences t := by
  rw [allEntityOccurrences, registeredFiles_cons_neg t hp]
  rfl

theorem allTopicListings_cons_pos {f : InputFile} (t : List InputFile)
    (hp : processedFile f = true) :
    allTopicListings (f :: t) = find_topics f.text ++ allTopicListings t := by
  rw [allTopicListings, registeredFiles_cons_pos t hp, List.flatMap_cons]
  rfl

theorem allTopicListings_cons_neg {f : InputFile} (t : List InputFile)
    (hp : processedFile f = false) :
    allTopicListings (f :: t) = allTopicListings t := by
  rw [allTopicListings, registeredFiles_cons_neg t hp]
  rfl

theorem foldl_step1_eg_keys (files : List InputFile) :
    ∀ s : KG, counterKeys (files.foldl step1 s).entity_global_counts =
      counterKeys s.entity_global_counts ++
        pyDedupAux (counterKeys s.entity_global_counts) (allEntityOccurrences files) := by
  induction files with
  | nil =>
    intro s
    simp [allEntityOccurrences, registeredFiles, pyDedupAux]
  | cons f t ih =>
    intro s
    rw [List.foldl_cons, ih (step1 s f)]
    by_cases hp : processedFile f = true
    · rw [allEntityOccurrences_cons_pos t hp]
      have hkeys : counterKeys (step1 s f).entity_global_counts =
          counterKeys s.entity_global_counts ++
            pyDedupAux (counterKeys s.entity_global_counts) (find_entities f.text) := by
        rw [step1_entity_global, if_pos hp,
          counterKeys_merge_dedup _ (counterKeys_nodup_ofList _), counterKeys_ofList]
        congr 1
        exact pyDedupAux_dedup (find_entities f.text) _ []
          (fun x hx => absurd hx (List.not_mem_nil x))
      rw [hkeys, pyDedupAux_append, List.append_assoc]
      have hmem : ∀ y, y ∈ counterKeys s.entity_global_counts ++
          pyDedupAux (counterKeys s.entity_global_counts) (find_entities f.text) ↔
          y ∈ find_entities f.text ++ counterKeys s.entity_global_counts := by
        intro y
        rw [List.mem_append, List.mem_append, mem_pyDedupAux]
        constructor
        · intro h
          rcases h with h0 | ⟨h1, _⟩
          · exact Or.inr h0
          · exact Or.inl h1
        · intro h
          by_cases hk : y ∈ counterKeys s.entity_global_counts
          · exact Or.inl hk
          · rcases h with h0 | h0
            · exact Or.inr ⟨h0, hk⟩
            · exact absurd h0 hk
      exact congrArg (fun z => counterKeys s.entity_global_counts ++
        (pyDedupAux (counterKeys s.entity_global_counts) (find_entities f.text) ++ z))
        (pyDedupAux_congr hmem (allEntityOccurrences t))
    · have hp2 : processedFile f = false := by rw [Bool.eq_false_iff]; exact hp
      rw [step1_not_processed s hp2, allEntityOccurrences_cons_neg t hp2]

theorem foldl_step1_tg_keys (files : List InputFile) :
    ∀ s : KG, counterKeys (files.foldl step1 s).topic_global_counts =
      counterKeys s.topic_global_counts ++
        pyDedupAux (counterKeys s.topic_global_counts) (allTopicListings files) := by
  induction files with
  | nil =>
    intro s
    simp [allTopicListings, registeredFiles, pyDedupAux]
  | cons f t ih =>
    intro s
    rw [List.foldl_cons, ih (step1 s f)]
    by_cases hp : processedFile f = true
    · rw [allTopicListings_cons_pos t hp]
      have hkeys : counterKeys (step1 s f).topic_global_counts =
          counterKeys s.topic_global_counts ++
            pyDedupAux (counterKeys s.topic_global_counts) (find_topics f.text) := by
        rw [step1_topic_global, if_pos hp,
          counterKeys_merge_dedup _ (counterKeys_nodup_ofList _), counterKeys_ofList]
        congr 1
        exact pyDedupAux_dedup (find_topics f.text) _ []
          (fun x hx => absurd hx (List.not_mem_nil x))
      rw [hkeys, pyDedupAux_append, List.append_assoc]
      have hmem : ∀ y, y ∈ counterKeys s.topic_global_counts ++
          pyDedupAux (counterKeys s.topic_global_counts) (find_topics f.text) ↔
          y ∈ find_topics f.text ++ counterKeys s.topic_global_counts := by
        intro y
        rw [List.mem_append, List.mem_append, mem_pyDedupAux]
        constructor
        · intro h
          rcases h with h0 | ⟨h1, _⟩
          · exact Or.inr h0
          · exact Or.inl h1
        · intro h
          by_cases hk : y ∈ counterKeys s.topic_global_counts
          · exact Or.inl hk
          · rcases h with h0 | h0
            · exact Or.inr ⟨h0, hk⟩
            · exact absurd h0 hk
      exact congrArg (fun z => counterKeys s.topic_global_counts ++
        (pyDedupAux (counterKeys s.topic_global_counts) (find_topics f.text) ++ z))
        (pyDedupAux_congr hmem (allTopicListings t))
    · have hp2 : processedFile f = false := by rw [Bool.eq_false_iff]; exact hp
      rw [step1_not_processed s hp2, allTopicListings_cons_neg t hp2]

theorem build_kg_eg_keys (files : List InputFile) :
    counterKeys (build_kg files).entity_global_counts =
      pyDedup (allEntityOccurrences files) := by
  rw [build_kg_entity_global, runPass1, foldl_step1_eg_keys files emptyKG]
  rfl

theorem build_kg_tg_keys (files : List InputFile) :
    counterKeys (build_kg files).topic_global_counts =
      pyDedup (allTopicListings files) := by
  rw [build_kg_topic_global, runPass1, foldl_step1_tg_keys files emptyKG]
  rfl

/-- C3 counterexample: the claim says each topic's global counter accumulates
raw per-file occurrence counts, but the code builds the per-file topic counter
from the deduplicated ranked list `find_topics` returns. For a single file
whose text is "gamma gamma", the word gamma occurs twice among the raw topic
candidates of that registered file, yet its global counter is 1. -/
theorem claim_C3_counterexample :
    counterCount
        (build_kg [⟨"./source/g.txt", "g.txt",
          ("gamma gamma").data⟩]).topic_global_counts "gamma" = 1 ∧
    ((registeredFiles [⟨"./source/g.txt", "g.txt",
          ("gamma gamma").data⟩]).map fun f =>
        (topicCandidates f.text).count "gamma").sum = 2 := by
  decide

/-- C3 amended: each entity name's global counter equals the sum over all
registered files of that name's raw per-file occurrence count, but each topic
name's global counter equals the number of registered files whose `find_topics`
list contains it (the per-file topic counter is built from the deduplicated
list, so each file contributes at most 1). Counter keys appear in
first-encountered order, and the summary lists the 20 highest-count entities
and the 20 highest-count topics in descending count order, ties broken by
first-encountered order, with their true counter values. -/
theorem claim_C3_amended (files : List InputFile) :
    (∀ name : String,
      counterCount (build_kg files).entity_global_counts name =
        ((registeredFiles files).map fun f => (find_entities f.text).count name).sum) ∧
    (∀ name : String,
      counterCount (build_kg files).topic_global_counts name =
        ((registeredFiles files).filter fun f => (find_topics f.text).contains name).length) ∧
    counterKeys (build_kg files).entity_global_counts = pyDedup (allEntityOccurrences files) ∧
    counterKeys (build_kg files).topic_global_counts = pyDedup (allTopicListings files) ∧
    (summaryTopEntities (build_kg files)).length =
      min 20 (build_kg files).entity_global_counts.length ∧
    (summaryTopEntities (build_kg files)).Pairwise (fun p q => q.2 ≤ p.2) ∧
    (∀ p ∈ summaryTopEntities (build_kg files),
      counterCount (build_kg files).entity_global_counts p.1 = p.2) ∧
    (∀ v : Nat,
      (summaryTopEntities (build_kg files)).filter (fun p => p.2 == v) <+:
        (build_kg files).entity_global_counts.filter fun p => p.2 == v) ∧
    (∀ p ∈ (build_kg files).entity_global_counts,
      p ∉ summaryTopEntities (build_kg files) →
        ∀ q ∈ summaryTopEntities (build_kg files), p.2 ≤ q.2) ∧
    (summaryTopTopics (build_kg files)).length =
      min 20 (build_kg files).topic_global_counts.length ∧
    (summaryTopTopics (build_kg files)).Pairwise (fun p q => q.2 ≤ p.2) ∧
    (∀ p ∈ summaryTopTopics (build_kg files),
      counterCount (build_kg files).topic_global_counts p.1 = p.2) ∧
    (∀ v : Nat,
      (summaryTopTopics (build_kg files)).filter (fun p => p.2 == v) <+:
        (build_kg files).topic_global_counts.filter fun p => p.2 == v) ∧
    ∀ p ∈ (build_kg files).topic_global_counts,
      p ∉ summaryTopTopics (build_kg files) →
        ∀ q ∈ summaryTopTopics (build_kg files), p.2 ≤ q.2 := by
  have hnodE : (counterKeys (build_kg files).entity_global_counts).Nodup := by
    rw [build_kg_entity_global, runPass1]
    exact foldl_step1_entity_global_nodup files emptyKG List.nodup_nil
  have hnodT : (counterKeys (build_kg files).topic_global_counts).Nodup := by
    rw [build_kg_topic_global, runPass1]
    exact foldl_step1_topic_global_nodup files emptyKG List.nodup_nil
  refine ⟨?_, ?_, ?_, ?_, ?_, ?_, ?_, ?_, ?_, ?_, ?_, ?_, ?_, ?_⟩
  · intro name
    rw [build_kg_entity_global, runPass1, foldl_step1_entity_global_count]
    have h0 : counterCount emptyKG.entity_global_counts name = 0 := rfl
    rw [h0]
    omega
  · intro name
    rw [build_kg_topic_global, runPass1, foldl_step1_topic_global_count]
    have h0 : counterCount emptyKG.topic_global_counts name = 0 := rfl
    rw [h0]
    have hcong : ((registeredFiles files).map fun f => (find_topics f.text).count name) =
        (registeredFiles files).map fun f =>
          if (find_topics f.text).contains name then 1 else 0 := by
      apply List.map_congr_left
      intro f _
      by_cases hm : name ∈ find_topics f.text
      · rw [List.count_eq_one_of_mem (find_topics_nodup f.text 10) hm,
          if_pos ((contains_iff _ _).mpr hm)]
      · rw [List.count_eq_zero.mpr hm,
          if_neg fun hb => hm ((contains_iff _ _).mp hb)]
    rw [hcong, sum_indicator]
    omega
  · exact build_kg_eg_keys files
  · exact build_kg_tg_keys files
  · show (mostCommon (build_kg files).entity_global_counts 20).length = _
    rw [mostCommon, List.length_take,
      (sortCountDesc_perm (build_kg files).entity_global_counts).length_eq]
  · exact mostCommon_sorted _ 20
  · intro p hp
    exact counterCount_of_mem hnodE (mem_of_mem_mostCommon hp)
  · intro v
    exact ⟨_, mostCommon_filter_eq (build_kg files).entity_global_counts 20 v⟩
  · intro p hp hnp q hq
    exact mostCommon_top hp hnp q hq
  · show (mostCommon (build_kg files).topic_global_counts 20).length = _
    rw [mostCommon, List.length_take,
      (sortCountDesc_perm (build_kg files).topic_global_counts).length_eq]
  · exact mostCommon_sorted _ 20
  · intro p hp
    exact counterCount_of_mem hnodT (mem_of_mem_mostCommon hp)
  · intro v
    exact ⟨_, mostCommon_filter_eq (build_kg files).topic_global_counts 20 v⟩
  · intro p hp hnp q hq
    exact mostCommon_top hp hnp q hq

end BuildKG
